import Mathlib

/-!
Verification of the TrimSubs subtitle-cutting engine (`TrimSubs.py`).

The Python source is shallowly embedded: Python ints become `Int`/`Nat`,
Python floats become `ℚ` (the programs' float arithmetic is idealized as
exact rational arithmetic; `round` and `'{:.3f}'` formatting are modelled
by explicit half-to-even rounding), Python lists become `List`, and code
paths that can raise an uncaught exception (`IndexError`) become `Except`.
Collaborator behaviour from the external `pysubs` library (the `Time`
class and event containers) is modelled as exact millisecond rational
arithmetic on event records.
-/

namespace TrimSubs

/-- Python `round`: round half to even, as an `Int`, on our rational model
of Python floats. -/
def pyRound (q : ℚ) : Int :=
  let f : Int := ⌊q⌋
  let r : ℚ := q - f
  if r < 1/2 then f
  else if 1/2 < r then f + 1
  else if f % 2 = 0 then f else f + 1

/-- Model of `'{:.3f}'.format(x)` followed by `float(...)`: the value
rounded to 3 decimal places (half to even). -/
def q3 (x : ℚ) : ℚ := (pyRound (x * 1000) : ℚ) / 1000

/-- Normalize a Python index appearing in a slice `xs[i:j]`:
negative indices count from the end, and the result is clamped to
`[0, len]`. -/
def pyIdxNorm (len : Nat) (i : Int) : Nat :=
  if i < 0 then ((len : Int) + i).toNat else min i.toNat len

/-- Python slice `xs[i:j]`. -/
def pySlice {α : Type} (xs : List α) (i j : Int) : List α :=
  let lo := pyIdxNorm xs.length i
  let hi := pyIdxNorm xs.length j
  (xs.drop lo).take (hi - lo)

/-- Python element access `xs[i]`: negative indices count from the end;
`none` models an `IndexError`. -/
def pyGet {α : Type} (xs : List α) (i : Int) : Option α :=
  let j : Int := if i < 0 then (xs.length : Int) + i else i
  if 0 ≤ j then xs.get? j.toNat else none

/-! ### `join_trims` (spec name: `mergeAdjacent`)

Source lines 338-351.  The Python loop walks the trims with a sentinel
`prev = -1` holding the start of the run being merged; the final
interval is flushed from the `except IndexError` handler, which fires
when `trims[i+1]` is evaluated during the last iteration. -/

/-- The loop body of `join_trims`: `prev` is the Python `prev` variable
(`-1` = unset).  A two-element lookahead mirrors the `trims[i+1]`
access; the singleton case mirrors the `except IndexError` flush. -/
def joinAux : Int → List (Int × Int) → List (Int × Int)
  | _, [] => []
  | prev, [t] =>
    let prev' := if prev = -1 then t.1 else prev
    [(prev', t.2)]
  | prev, t :: u :: rest =>
    let prev' := if prev = -1 then t.1 else prev
    if u.1 - t.2 ≠ 1 then (prev', t.2) :: joinAux (-1) (u :: rest)
    else joinAux prev' (u :: rest)

/-- `join_trims` (TrimSubs.py lines 338-351): join contiguous Trims. -/
def join_trims (trims : List (Int × Int)) : List (Int × Int) :=
  joinAux (-1) trims

/-- Modelled from the spec: `mergeAdjacent` as the spec words it —
"merge interval i and i+1 when `start[i+1] - end[i] == 1` ... with merges
applied left-to-right, non-recursive collapsing allowed (a merged run may
itself be adjacent to the next)".  The accumulator carries the merged run
built so far. -/
def mergeAdjacentSpecAux : (Int × Int) → List (Int × Int) → List (Int × Int)
  | t, [] => [t]
  | t, u :: rest =>
    if u.1 - t.2 = 1 then mergeAdjacentSpecAux (t.1, u.2) rest
    else t :: mergeAdjacentSpecAux u rest

/-- Modelled from the spec: entry point of the spec-worded `mergeAdjacent`. -/
def mergeAdjacentSpec : List (Int × Int) → List (Int × Int)
  | [] => []
  | t :: rest => mergeAdjacentSpecAux t rest

/-! ### `read_trims` (spec name: `parseEditPoints`)

Source lines 295-336.  The two regular expressions

  `re_line = ^[^#]*\bTrim\s*\(\s*(\d+)\s*,\s*(-?\d+)\s*\)` (+ `.*#.*LABEL`)
  `re_trim = ^[^#]*\bTrim\s*\(\s*(\d+)\s*,\s*(-?\d+)\s*\)`

(both `re.IGNORECASE`) are modelled directly: the greedy `[^#]*` prefix
means `re_trim.search` yields the match at the greatest position not past
the first `#` at which the `\bTrim\s*\(...\)` body matches; the label tail
`.*#.*LABEL` requires a `#` after the closing parenthesis and the label
text after that `#`, with `.` not crossing a newline.  Word characters and
case folding are modelled at ASCII level (the script's own syntax is
ASCII). -/

/-- Python regex `\w` at ASCII level. -/
def isWordCh (c : Char) : Bool := c.isAlphanum || c = '_'

/-- Python regex `\s` at ASCII level. -/
def isSpaceCh (c : Char) : Bool :=
  c = ' ' || c = '\t' || c = '\n' || c = '\r' || c = '\x0b' || c = '\x0c'

/-- ASCII lower-casing on code points, for `re.IGNORECASE`. -/
def lowerNat (n : Nat) : Nat := if 65 ≤ n ∧ n ≤ 90 then n + 32 else n

/-- Case-insensitive character comparison (`re.IGNORECASE`, ASCII). -/
def charCI (c d : Char) : Bool := lowerNat c.toNat = lowerNat d.toNat

/-- Case-insensitive equality of character lists. -/
def ciListEq (xs ys : List Char) : Bool :=
  xs.length = ys.length && (xs.zip ys).all fun p => charCI p.1 p.2

/-- Numeric value of a digit run (`int()` of a `\d+` group). -/
def digitsVal (ds : List Char) : Nat :=
  ds.foldl (fun a c => a * 10 + (c.toNat - 48)) 0

/-- First index `≥ i` whose character is not `\s` (or the length). -/
def skipWs (s : List Char) (i : Nat) : Nat :=
  i + ((s.drop i).takeWhile isSpaceCh).length

/-- Scan a `\d+` group starting at `i`: value and end index. -/
def scanNatAt (s : List Char) (i : Nat) : Option (Nat × Nat) :=
  let ds := (s.drop i).takeWhile Char.isDigit
  if ds.isEmpty then none else some (digitsVal ds, i + ds.length)

/-- Scan the regex body `Trim\s*\(\s*(\d+)\s*,\s*(-?\d+)\s*\)` at
position `i`; returns (start of group 1, group 1, group 2, end). -/
def scanTrimAt (s : List Char) (i : Nat) : Option (Nat × Int × Int × Nat) :=
  match s.get? i, s.get? (i+1), s.get? (i+2), s.get? (i+3) with
  | some c0, some c1, some c2, some c3 =>
    if charCI c0 'T' && charCI c1 'r' && charCI c2 'i' && charCI c3 'm' then
      let j0 := skipWs s (i+4)
      match s.get? j0 with
      | some '(' =>
        let g1 := skipWs s (j0+1)
        match scanNatAt s g1 with
        | some (a, j1) =>
          let j2 := skipWs s j1
          match s.get? j2 with
          | some ',' =>
            let j3 := skipWs s (j2+1)
            let nj : Bool × Nat := match s.get? j3 with
              | some '-' => (true, j3+1)
              | _ => (false, j3)
            match scanNatAt s nj.2 with
            | some (bv, j5) =>
              let j6 := skipWs s j5
              match s.get? j6 with
              | some ')' =>
                some (g1, (a : Int), if nj.1 then -(bv : Int) else (bv : Int), j6+1)
              | _ => none
            | none => none
          | _ => none
        | none => none
      | _ => none
    else none
  | _, _, _, _ => none

/-- Regex word boundary `\b` before a word character at position `i`. -/
def boundaryAt (s : List Char) (i : Nat) : Bool :=
  i = 0 || !(isWordCh (s.getD (i-1) ' '))

/-- Index of the first `#` (or the length): the largest extent the
greedy `[^#]*` prefix can reach. -/
def hashLimit (s : List Char) : Nat :=
  match s.findIdx? (· = '#') with
  | some k => k
  | none => s.length

/-- No newline among positions `[a, b)` (regex `.` cannot cross one). -/
def noNl (s : List Char) (a b : Nat) : Bool :=
  ((s.drop a).take (b - a)).all (· ≠ '\n')

/-- The label tail `.*#.*LABEL` matched starting right after position
`e` (the end of the Trim body match). -/
def labelCondAt (s : List Char) (e : Nat) (label : List Char) : Bool :=
  (List.range s.length).any fun j =>
    e ≤ j && s.getD j ' ' = '#' && noNl s e j &&
      (List.range (s.length + 1)).any fun k =>
        j < k && k + label.length ≤ s.length &&
          ciListEq ((s.drop k).take label.length) label && noNl s (j+1) k

/-- `re_line.search(line)` as a Boolean: some backtracking position `i`
of the greedy `[^#]*` admits the Trim body, and (when the label is
non-empty, i.e. truthy in Python) the label tail after it. -/
def matchesLine (label : List Char) (s : List Char) : Bool :=
  (List.range (hashLimit s + 1)).any fun i =>
    boundaryAt s i &&
      (scanTrimAt s i).elim false fun r =>
        label.isEmpty || labelCondAt s r.2.2.2 label

/-- The backtracking search of `re_trim.search`: the match at the
greatest admissible position, scanning downward from the `#` limit. -/
def findTrimDown (s : List Char) : Nat → Option (Nat × Int × Int × Nat)
  | 0 => if boundaryAt s 0 then scanTrimAt s 0 else none
  | i + 1 =>
    match (if boundaryAt s (i+1) then scanTrimAt s (i+1) else none) with
    | some r => some r
    | none => findTrimDown s i

/-- `re_trim.search(s)`: group-1 start, the two groups, and the end. -/
def findTrim (s : List Char) : Option (Nat × Int × Int × Nat) :=
  findTrimDown s (hashLimit s)

/-- The `while(1)` loop of `read_trims`: repeatedly search `line[:end]`,
collect the pair, and move `end` to the start of group 1.  The scan
boundary strictly decreases (group 1 starts at a digit inside the
searched prefix), so `line.length + 1` steps of fuel always suffice. -/
def scanLoopGo (line : List Char) : Nat → Nat → List (Int × Int)
  | 0, _ => []
  | fuel + 1, e =>
    match findTrim (line.take e) with
    | none => []
    | some (g1, a, b, _) => (a, b) :: scanLoopGo line fuel g1

/-- All Trim pairs of a line, collected right-to-left as in the source. -/
def scanTrims (line : List Char) : List (Int × Int) :=
  scanLoopGo line (line.length + 1) line.length

/-- Failure modes of `read_trims` (the three `exit(...)` calls). -/
inductive ReadErr where
  | noLabel : ReadErr
  | noLine : ReadErr
  | noTrims : ReadErr
deriving DecidableEq, Repr

/-- `lines = lines[line_number - 1:line_number]` when a truthy line
number is given (TrimSubs.py lines 313-314). -/
def selectLines (lines : List (List Char)) (line_number : Option Int) :
    List (List Char) :=
  match line_number with
  | some n => if n ≠ 0 then pySlice lines (n-1) n else lines
  | none => lines

/-- `reversed(lines) if reversed_ else lines` (TrimSubs.py line 315). -/
def seqOf (lines' : List (List Char)) (reversed_ : Bool) : List (List Char) :=
  if reversed_ then lines'.reverse else lines'

/-- `read_trims` (TrimSubs.py lines 295-336).  `label = []` models both
`label=None` and an empty label (both falsy in `if label`); a line
number `some n` with `n = 0` is likewise falsy in `if line_number`. -/
def read_trims (lines : List (List Char)) (reversed_ : Bool)
    (label : List Char) (line_number : Option Int) :
    Except ReadErr (List (Int × Int)) :=
  match (seqOf (selectLines lines line_number) reversed_).find?
      (fun l => matchesLine label l) with
  | some line =>
    .ok (((scanTrims line).reverse).map fun p =>
      (p.1, if 0 < p.2 then p.2 else p.1 - p.2 - 1))
  | none =>
    if label ≠ [] then .error .noLabel
    else match line_number with
      | some n => if n ≠ 0 then .error .noLine else .error .noTrims
      | none => .error .noTrims

/-! ### `sub_subs` (spec name: `cutFrameIndexedLines`)

Source lines 353-410.  File reading, BOM sniffing and encoding fall
outside the model: the input is the decoded list of text lines.  The
final `file.writelines` is modelled by returning the output lines (the
caller `main_model` records the write).  The three sites that can raise
an uncaught `IndexError` become distinct error values:
`lines[0]` on an empty file, `re_sub.findall(line)[0]` on a line that
does not start with `{digits}{digits}`, and `new_lines[-1]` when no line
has been emitted yet. -/

/-- Uncaught `IndexError` sites of `sub_subs`. -/
inductive SubErr where
  | emptyInput : SubErr
  | noMatch : SubErr
  | emptyOutput : SubErr
deriving DecidableEq, Repr

/-- `re_sub.findall(line)[0]` for `re_sub = ^{(\d+)}{(\d+)}`: the two
digit groups (as raw digit strings) and the rest of the line, or `none`
when the line does not start with the frame-pair syntax. -/
def parseSubHead : List Char → Option (List Char × List Char × List Char)
  | '{' :: rest =>
    let ds1 := rest.takeWhile Char.isDigit
    if ds1.isEmpty then none
    else
      match rest.drop ds1.length with
      | '}' :: '{' :: rest2 =>
        let ds2 := rest2.takeWhile Char.isDigit
        if ds2.isEmpty then none
        else
          match rest2.drop ds2.length with
          | '}' :: rest3 => some (ds1, ds2, rest3)
          | _ => none
      | _ => none
  | _ => none

/-- `re_sub.sub('{{{}}}{{{}}}'.format(start, end), line)`: rewrite the
frame-pair prefix, keeping the remainder of the line. -/
def renderSub (s e : Int) (rest : List Char) : List Char :=
  '{' :: (toString s).data ++ '}' :: '{' :: (toString e).data ++ '}' :: rest

/-- `str.endswith('\n')`. -/
def endsNl (l : List Char) : Bool :=
  match l.getLast? with
  | some c => c = '\n'
  | none => false

/-- The inner `for line in lines` loop of `sub_subs` for one trim
`(a, b)` with the current `offset`: parse each line (raising on a
non-matching line), keep it under the strict overlap test, clip to the
trim and shift by `-offset`. -/
def cutLines (a b offset : Int) : List (List Char) → Except SubErr (List (List Char))
  | [] => .ok []
  | l :: ls =>
    match parseSubHead l with
    | none => .error .noMatch
    | some (d1, d2, rest) =>
      let s : Int := (digitsVal d1 : Nat)
      let e : Int := (digitsVal d2 : Nat)
      match cutLines a b offset ls with
      | .error err => .error err
      | .ok tail =>
        if s < b ∧ e > a then
          let s' := if s < a then a else s
          let e' := if e > b then b else e
          .ok (renderSub (s' - offset) (e' - offset) rest :: tail)
        else .ok tail

/-- `if not new_lines[-1].endswith('\n'): new_lines[-1] += '\n'`,
including the `IndexError` on an empty list. -/
def fixLastNl (nl : List (List Char)) : Option (List (List Char)) :=
  match nl.getLast? with
  | none => none
  | some last => some (if endsNl last then nl else nl.dropLast ++ [last ++ ['\n']])

/-- The outer `for trim in trims` loop of `sub_subs`, accumulating
`new_lines` and threading `prev_end` (initially `-1`). -/
def subLoop (linesIn : List (List Char)) :
    List (Int × Int) → Int → List (List Char) → Except SubErr (List (List Char))
  | [], _, nl => .ok nl
  | (a, b) :: ts, prev_end, nl =>
    let offset := a - prev_end - 1
    match cutLines a b offset linesIn with
    | .error e => .error e
    | .ok added =>
      match fixLastNl (nl ++ added) with
      | none => .error .emptyOutput
      | some nl' => subLoop linesIn ts (b - offset) nl'

/-- `sub_subs` (TrimSubs.py lines 353-410): cut MicroDVD (frame-indexed)
subtitle lines.  A first line `{1}{1}...` is kept verbatim as a header
and excluded from cutting. -/
def sub_subs (trims : List (Int × Int)) (lines : List (List Char)) :
    Except SubErr (List (List Char)) :=
  match lines with
  | [] => .error .emptyInput
  | l0 :: rest =>
    match parseSubHead l0 with
    | none => .error .noMatch
    | some (d1, d2, _) =>
      if d1 = ['1'] ∧ d2 = ['1'] then subLoop rest trims (-1) [l0]
      else subLoop (l0 :: rest) trims (-1) []

/-! ### `Trim` and `frames2time` (spec names: `TrimInterval`, `mapToTime`)

Source lines 413-438 (`class Trim`), 441-462 (`time_format`) and
506-574 (`frames2time`).  `pysubs.Time` values are modelled as exact
millisecond rationals; `time_format(x, dic=True)` decomposes
`round(x)` into (h, m, s, ms) components (negated for `x ≤ 0`) which
`pysubs.Time(**dict)` / `shift(**dict)` reassemble, so a stored time or
shift equals Python `round` of the float — `pyRound` here.  The v2
timecode file appears as its parsed list of per-frame cumulative
milliseconds (`tcLines`); the optional output timecode file appears as
the list of emitted values, `'{:.3f}'` formatting becoming `q3`. -/

/-- The `Trim` class (TrimSubs.py lines 413-438).  `stop` models the
`end` attribute; `time_shift` is the reassembled total of the stored
`{'h','m','s','ms'}` dictionary, in milliseconds. -/
structure Trim where
  start : ℚ
  stop : ℚ
  frame_shift : Option Int := none
  time_shift : Option Int := none
deriving DecidableEq, Repr

/-- Uncaught `IndexError` of `frames2time` (a Trim frame outside the
timecode table, or extrapolation over a table shorter than 2 lines). -/
inductive FtErr where
  | indexError : FtErr
deriving DecidableEq, Repr

/-- Decidable equality of `Except` results, used to evaluate the model
on concrete inputs. -/
instance exceptDecEq {ε α : Type} [DecidableEq ε] [DecidableEq α] :
    DecidableEq (Except ε α)
  | .error a, .error b =>
    if h : a = b then .isTrue (congrArg _ h)
    else .isFalse fun hh => h (Except.error.inj hh)
  | .error _, .ok _ => .isFalse fun hh => Except.noConfusion hh
  | .ok _, .error _ => .isFalse fun hh => Except.noConfusion hh
  | .ok a, .ok b =>
    if h : a = b then .isTrue (congrArg _ h)
    else .isFalse fun hh => h (Except.ok.inj hh)

/-- One iteration of the `for trim in trims_frames` loop in the
timecode branch of `frames2time`: the exact (unrounded) start, end and
gap, and the table lines after the possible extrapolation append. -/
structure VfrStep where
  s : ℚ
  e : ℚ
  gap : ℚ
  linesAfter : List ℚ
deriving DecidableEq, Repr

/-- The timecode-branch loop (TrimSubs.py lines 539-551): per trim,
read `lines[trim[0]]` (an uncaught `IndexError` if absent) and
`lines[trim[1] + 1]`; when the latter is missing, extrapolate
`2*lines[-1] - lines[-2]` and append it to the table.  `prev_end`
threads the contiguity cursor. -/
def vfrLoop (lines : List ℚ) (prev_end : ℚ) :
    List (Int × Int) → Except FtErr (List VfrStep)
  | [] => .ok []
  | (a, b) :: ts =>
    match pyGet lines a with
    | none => .error .indexError
    | some s =>
      match pyGet lines (b + 1) with
      | some v =>
        let gap := s - prev_end
        match vfrLoop lines (v - gap) ts with
        | .error err => .error err
        | .ok tail => .ok (⟨s, v, gap, lines⟩ :: tail)
      | none =>
        match pyGet lines (-1), pyGet lines (-2) with
        | some l1, some l2 =>
          let v := 2 * l1 - l2
          let gap := s - prev_end
          match vfrLoop (lines ++ [v]) (v - gap) ts with
          | .error err => .error err
          | .ok tail => .ok (⟨s, v, gap, lines ++ [v]⟩ :: tail)
        | _, _ => .error .indexError

/-- The timecode (vfr) branch of `frames2time`: the produced Trims
(times and shifts stored through `time_format`, i.e. rounded to whole
milliseconds) and the emitted output-timecode values (the `0.000` line
followed, per trim, by `lines[trim[0]+1 : trim[1]+2]` each decremented
by the trim's gap and formatted to 3 decimals). -/
def frames2time_vfr (trims : List (Int × Int)) (tcLines : List ℚ) :
    Except FtErr (List Trim × List ℚ) :=
  match vfrLoop tcLines 0 trims with
  | .error e => .error e
  | .ok steps =>
    let ts := steps.map fun st =>
      { start := (pyRound st.s : ℚ), stop := (pyRound st.e : ℚ),
        frame_shift := none, time_shift := some (pyRound (-st.gap)) : Trim }
    let nl := 0 :: (trims.zip steps).flatMap fun pr =>
      (pySlice pr.2.linesAfter (pr.1.1 + 1) (pr.1.2 + 2)).map fun v => q3 (v - pr.2.gap)
    .ok (ts, nl)

/-- The constant-fps loop (TrimSubs.py lines 561-567); returns the
Trims and the final `prev_end`.  `pysubs.Time(frame=f, fps=fps)` is
modelled as `f * 1000 / fps` milliseconds. -/
def cfrLoop (fps : ℚ) : List (Int × Int) → Int → List Trim × Int
  | [], prev_end => ([], prev_end)
  | (a, b) :: ts, prev_end =>
    let gap := a - prev_end
    let t : Trim :=
      { start := (a : ℚ) * 1000 / fps, stop := ((b : ℚ) + 1) * 1000 / fps,
        frame_shift := some (-gap), time_shift := none }
    let rec_ := cfrLoop fps ts (b + 1 - gap)
    (t :: rec_.1, rec_.2)

/-- `range(n)` over `Int` (empty for `n ≤ 0`). -/
def rangeInt (n : Int) : List Int := (List.range n.toNat).map fun k => (k : Int)

/-- The constant-fps branch of `frames2time` (TrimSubs.py lines
559-573): the Trims with per-trim frame shifts, and the emitted
output-timecode values (`'{:.3f}'.format(ms * i)` for
`i in range(prev_end + 1)`). -/
def frames2time_cfr (trims : List (Int × Int)) (fps : ℚ) : List Trim × List ℚ :=
  let r := cfrLoop fps trims 0
  (r.1, (rangeInt (r.2 + 1)).map fun i => q3 (1000 / fps * i))

/-- `frames2time` (TrimSubs.py lines 506-574).  The timecode file read
and the v1→v2 conversion sit at the model boundary: `tcLines` is the
parsed v2 cumulative table.  The emitted output-timecode values are
always computed here; `main_model` records the file write when the
`otc` option is set. -/
def frames2time (trims : List (Int × Int)) (fps : ℚ) (vfr : Bool)
    (tcLines : List ℚ) : Except FtErr (List Trim × List ℚ) :=
  if vfr then frames2time_vfr trims tcLines
  else .ok (frames2time_cfr trims fps)

/-! ### `time_subs` (spec name: `cutEvents`)

Source lines 576-596.  A pysubs event is modelled by its two timing
fields (exact millisecond rationals) plus an opaque payload tag; the
library's `shift` is exact addition of the shift amount, a frame-based
shift converting at `1000 / fps` milliseconds per frame. -/

/-- A pysubs subtitle event: timing fields and opaque payload. -/
structure SSAEvent where
  start : ℚ
  stop : ℚ
  tag : Nat := 0
deriving DecidableEq, Repr

/-- The shift amount (in ms) applied to an event inside `trim`:
`line.shift(**trim.time_shift)` in the timecode mode,
`line.shift(frame=trim.frame_shift, fps=fps)` in the constant-fps mode.
`getD 0` covers the mode/field mismatch that the Python code would turn
into a `TypeError`; `frames2time` never produces it. -/
def evShiftAmount (vfr : Bool) (fps : ℚ) (t : Trim) : ℚ :=
  if vfr then ((t.time_shift.getD 0 : Int) : ℚ)
  else ((t.frame_shift.getD 0 : Int) : ℚ) * 1000 / fps

/-- `time_subs` (TrimSubs.py lines 576-596): cut and offset time-based
subtitle events.  Outer loop over trims, inner loop over events,
appending the clipped and shifted copy of every strictly overlapping
(trim, event) pair. -/
def time_subs (trims : List Trim) (subs : List SSAEvent) (vfr : Bool)
    (fps : ℚ) : List SSAEvent :=
  trims.foldl (fun acc trim =>
    subs.foldl (fun acc2 line =>
      if trim.start < line.stop ∧ line.start < trim.stop then
        let s' := if line.start < trim.start then trim.start else line.start
        let e' := if line.stop > trim.stop then trim.stop else line.stop
        acc2 ++ [{ line with
          start := s' + evShiftAmount vfr fps trim,
          stop := e' + evShiftAmount vfr fps trim }]
      else acc2) acc) []

/-! ### The `main` pipeline (TrimSubs.py lines 167-224)

Command-line handling, path derivation and encoding detection are
collaborators outside the core; what is modelled is the order of the
pipeline stages and of the output-file writes: read Trims → join →
`frames2time` (which writes the optional timecode file on success) →
read/decode the subtitle input → cut → write the subtitle output.  The
decoding outcome of the external pysubs reader is a configuration
field. -/

/-- Output files, in the order written. -/
inductive WriteEv where
  | otcFile : WriteEv
  | subFile : WriteEv
deriving DecidableEq, Repr

/-- A failure of some pipeline stage. -/
inductive MainErr where
  | trims (e : ReadErr) : MainErr
  | ft (e : FtErr) : MainErr
  | decode : MainErr
  | subsub (e : SubErr) : MainErr
deriving DecidableEq, Repr

/-- Configuration of one run, after argument handling: the Avisynth
script lines, parse options, the timing source, whether an output
timecode file was requested, the kind of subtitle input (`none`: no
input; `some true`: MicroDVD `.sub`; `some false`: time-based), the
`.sub` input lines, and the external decoder's outcome for the
time-based formats. -/
structure MainCfg where
  avsLines : List (List Char)
  reversed_ : Bool := false
  label : List Char := []
  line_number : Option Int := none
  vfr : Bool := false
  fps : ℚ := 24
  tcLines : List ℚ := []
  otc : Bool := false
  input : Option Bool := none
  subLines : List (List Char) := []
  decodeResult : Except Unit (List SSAEvent) := .ok []

/-- The pipeline of `main` (TrimSubs.py lines 167-224): the ordered
list of output-file writes performed, and the final outcome.  In the
time-based branch the subtitle output written on success is
`time_subs trims_nl.1 decoded cfg.vfr cfg.fps`; only the fact of the
write is recorded here. -/
def main_model (cfg : MainCfg) : List WriteEv × Except MainErr Unit :=
  match read_trims cfg.avsLines cfg.reversed_ cfg.label cfg.line_number with
  | .error e => ([], .error (.trims e))
  | .ok tf0 =>
    match frames2time (join_trims tf0) cfg.fps cfg.vfr cfg.tcLines with
    | .error e => ([], .error (.ft e))
    | .ok _ =>
      match cfg.input with
      | none => ((if cfg.otc then [.otcFile] else []), .ok ())
      | some true =>
        match sub_subs (join_trims tf0) cfg.subLines with
        | .error e => ((if cfg.otc then [.otcFile] else []), .error (.subsub e))
        | .ok _ => ((if cfg.otc then [.otcFile] else []) ++ [.subFile], .ok ())
      | some false =>
        match cfg.decodeResult with
        | .error _ => ((if cfg.otc then [.otcFile] else []), .error .decode)
        | .ok _ =>
          ((if cfg.otc then [.otcFile] else []) ++ [.subFile], .ok ())

/-! ### Derived notions used to state the claims -/

/-- The start of a Trim after applying its own (stored) time shift. -/
def shiftedStart (t : Trim) : ℚ := t.start + ((t.time_shift.getD 0 : Int) : ℚ)

/-- The end of a Trim after applying its own (stored) time shift. -/
def shiftedStop (t : Trim) : ℚ := t.stop + ((t.time_shift.getD 0 : Int) : ℚ)

/-- The stored frame shift of a Trim. -/
def fsOf (t : Trim) : Int := t.frame_shift.getD 0

/-- Contiguity of the output timeline, as the invariant claims it for
the timecode mode: the first shifted start is 0 and every subsequent
shifted start equals the previous shifted end. -/
def vfrContiguous (ts : List Trim) : Prop :=
  match ts with
  | [] => True
  | t :: _ =>
    shiftedStart t = 0 ∧
      List.Chain' (fun t u => shiftedStart u = shiftedStop t) ts

/-- The Trims produced by the timecode branch (empty on failure); a
projection used to state concrete counterexamples. -/
def f2tTrims (trims : List (Int × Int)) (tcLines : List ℚ) : List Trim :=
  match frames2time_vfr trims tcLines with
  | .ok p => p.1
  | .error _ => []

/-- Number of kept frames in the first `k` trims. -/
def keptBefore (trims : List (Nat × Nat)) (k : Nat) : Nat :=
  ((trims.take k).map fun p => p.2 - p.1 + 1).sum

/-- Image of source frame `f` of trim number `k` on the output
timeline. -/
def imgOf (trims : List (Nat × Nat)) (k : Nat) (f : Nat) : Nat :=
  f - (trims.getD k (0, 0)).1 + keptBefore trims k

/-- Duration of frame `f` in a cumulative timecode table. -/
def tableDur (tc : List ℚ) (f : Nat) : ℚ := tc.getD (f+1) 0 - tc.getD f 0

/-- Duration at position `j` of an emitted cumulative table. -/
def emittedDur (nl : List ℚ) (j : Nat) : ℚ := nl.getD (j+1) 0 - nl.getD j 0

/-- A timecode value that is a whole number of thousandths of a
millisecond: the granularity of a 3-decimal v2 timecode file, which
both timecode readers produce. -/
def isMsMult (v : ℚ) : Prop := ∃ n : Int, v = (n : ℚ) / 1000

/-- Frame intervals given as naturals, embedded into the `Int` pairs
the pipeline carries. -/
def natTrims (trims : List (Nat × Nat)) : List (Int × Int) :=
  trims.map fun p => ((p.1 : Int), (p.2 : Int))

/-- The claimed offset of interval number `k`: its start frame minus
the number of source frames kept before it (equivalently, the number of
source frames skipped before it). -/
def offsetSpec (trims : List (Int × Int)) (k : Nat) : Int :=
  (trims.getD k (0, 0)).1 - ((trims.take k).map fun p => p.2 - p.1 + 1).sum

/-- The offset sequence of `sub_subs` started from an arbitrary
`prev_end` value. -/
def offsetFrom (prev : Int) (trims : List (Int × Int)) (k : Nat) : Int :=
  (trims.getD k (0, 0)).1 - prev - 1 -
    ((trims.take k).map fun p => p.2 - p.1 + 1).sum

/-- The spec-side per-line cut of the frame-indexed cutter: parse the
frame pair, keep the line under the strict overlap test, clip to the
interval with max/min and shift both frame fields by `-off`. -/
def cutSpecLine (a b off : Int) (l : List Char) : Option (List Char) :=
  match parseSubHead l with
  | none => none
  | some (d1, d2, r) =>
    let s : Int := (digitsVal d1 : Nat)
    let e : Int := (digitsVal d2 : Nat)
    if s < b ∧ e > a then
      some (renderSub (max s a - off) (min e b - off) r)
    else none

/-- The spec-side frame-indexed cutter: per interval `(a, b)`, in
order, the overlapping lines clipped and shifted by the offset
`a - kept`, where `kept` is the cumulative number of source frames
kept before the interval — so the offset is the cumulative number of
source frames skipped before it. -/
def cutSpec (linesIn : List (List Char)) :
    List (Int × Int) → Int → List (List Char)
  | [], _ => []
  | (a, b) :: ts, kept =>
    (linesIn.filterMap fun l => cutSpecLine a b (a - kept) l) ++
      cutSpec linesIn ts (kept + (b - a + 1))

/-- A concrete run configuration: timecode output requested, a
time-based subtitle input whose external decoding fails. -/
def cfgC8 : MainCfg :=
  { avsLines := ["Trim(0,5)".data], otc := true, input := some false,
    decodeResult := .error () }

/-- A timecode table with sub-millisecond fractional values
(0.4 ms steps). -/
def tblC2 : List ℚ := [0, 2/5, 4/5, 6/5, 8/5]

/-- A timecode table whose second entry is not a whole number of
thousandths-representable milliseconds at 3 decimals (0.0004 ms). -/
def tblC9 : List ℚ := [0, 1/2500, 1]

/-- The emitted output-timecode values of the timecode branch (empty on
failure); a projection used to state concrete counterexamples. -/
def f2tNewLines (trims : List (Int × Int)) (tcLines : List ℚ) : List ℚ :=
  match frames2time_vfr trims tcLines with
  | .ok p => p.2
  | .error _ => []

/-- The steps of the timecode-branch loop when every interval lies
inside the table (no extrapolation, the table is never extended). -/
def vfrStepsNB (tc : List ℚ) : ℚ → List (Nat × Nat) → List VfrStep
  | _, [] => []
  | pe, (a, b) :: ts =>
    ⟨tc.getD a 0, tc.getD (b+1) 0, tc.getD a 0 - pe, tc⟩ ::
      vfrStepsNB tc (tc.getD (b+1) 0 - (tc.getD a 0 - pe)) ts

/-- The emitted values after the leading `0.000` line, per trim, in the
in-table case. -/
def segsNB (tc : List ℚ) : ℚ → List (Nat × Nat) → List ℚ
  | _, [] => []
  | pe, (a, b) :: ts =>
    (pySlice tc ((a : Int) + 1) ((b : Int) + 2)).map
        (fun v => q3 (v - (tc.getD a 0 - pe))) ++
      segsNB tc (tc.getD (b+1) 0 - (tc.getD a 0 - pe)) ts

/-- The gap of trim number `k` in the in-table case. -/
def gapsNB (tc : List ℚ) : ℚ → List (Nat × Nat) → Nat → ℚ
  | _, [], _ => 0
  | pe, (a, _) :: _, 0 => tc.getD a 0 - pe
  | pe, (a, b) :: ts, k + 1 =>
    gapsNB tc (tc.getD (b+1) 0 - (tc.getD a 0 - pe)) ts k

end TrimSubs

namespace TrimSubs

lemma joinAux_eq_spec (ts : List (Int × Int)) :
    ∀ (t : Int × Int) (prev : Int), (∀ x ∈ t :: ts, x.1 ≠ -1) →
      joinAux prev (t :: ts) =
        mergeAdjacentSpecAux (if prev = -1 then t.1 else prev, t.2) ts := by
  induction ts with
  | nil =>
    intro t prev _
    simp [joinAux, mergeAdjacentSpecAux]
  | cons u rest ih =>
    intro t prev h
    have ht1 : t.1 ≠ -1 := h t (List.mem_cons_self _ _)
    have hprev' : (if prev = -1 then t.1 else prev) ≠ -1 := by
      split <;> simp_all
    have htail : ∀ x ∈ u :: rest, x.1 ≠ -1 := by
      intro x hx; exact h x (List.mem_cons_of_mem _ hx)
    simp only [joinAux, mergeAdjacentSpecAux]
    by_cases hd : u.1 - t.2 = 1
    · simp only [hd, if_pos rfl, ne_eq, not_true_eq_false, if_neg, if_false]
      rw [ih u (if prev = -1 then t.1 else prev) htail]
      simp [hprev']
    · simp only [ne_eq, hd, not_false_eq_true, if_true, if_neg hd]
      rw [ih u (-1) htail]
      simp

/-- On inputs whose start frames are never the sentinel `-1`,
`join_trims` computes exactly the spec's `mergeAdjacent`. -/
lemma join_trims_eq_spec (ts : List (Int × Int)) (h : ∀ x ∈ ts, x.1 ≠ -1) :
    join_trims ts = mergeAdjacentSpec ts := by
  cases ts with
  | nil => rfl
  | cons t rest =>
    rw [join_trims, joinAux_eq_spec rest t (-1) h]
    simp [mergeAdjacentSpec]

lemma mergeAdjacentSpecAux_head :
    ∀ (ts : List (Int × Int)) (t : Int × Int),
      ∃ y rest, mergeAdjacentSpecAux t ts = (t.1, y) :: rest := by
  intro ts
  induction ts with
  | nil => intro t; exact ⟨t.2, [], rfl⟩
  | cons u rest ih =>
    intro t
    simp only [mergeAdjacentSpecAux]
    by_cases hd : u.1 - t.2 = 1
    · simp only [hd, if_pos rfl]
      obtain ⟨y, l, hl⟩ := ih (t.1, u.2)
      exact ⟨y, l, hl⟩
    · simp only [if_neg hd]
      exact ⟨t.2, mergeAdjacentSpecAux u rest, rfl⟩

/-- Every consecutive pair in the output of the spec merge has
difference distinct from 1 (all mergeable pairs got merged). -/
lemma mergeAdjacentSpecAux_chain :
    ∀ (ts : List (Int × Int)) (t : Int × Int),
      List.Chain' (fun x y => y.1 - x.2 ≠ 1) (mergeAdjacentSpecAux t ts) := by
  intro ts
  induction ts with
  | nil => intro t; simp [mergeAdjacentSpecAux]
  | cons u rest ih =>
    intro t
    simp only [mergeAdjacentSpecAux]
    by_cases hd : u.1 - t.2 = 1
    · simp only [hd, if_pos rfl]; exact ih (t.1, u.2)
    · simp only [if_neg hd]
      obtain ⟨y, l, hl⟩ := mergeAdjacentSpecAux_head rest u
      rw [hl]
      refine List.Chain'.cons ?_ (hl ▸ ih u)
      simpa using hd

/-- Start frames of the spec-merged output all occur as input start
frames. -/
lemma mergeAdjacentSpecAux_starts :
    ∀ (ts : List (Int × Int)) (t : Int × Int) (p : Int × Int),
      p ∈ mergeAdjacentSpecAux t ts → p.1 = t.1 ∨ ∃ q ∈ ts, p.1 = q.1 := by
  intro ts
  induction ts with
  | nil =>
    intro t p hp
    simp only [mergeAdjacentSpecAux, List.mem_singleton] at hp
    subst hp; exact Or.inl rfl
  | cons u rest ih =>
    intro t p hp
    simp only [mergeAdjacentSpecAux] at hp
    by_cases hd : u.1 - t.2 = 1
    · rw [if_pos hd] at hp
      rcases ih (t.1, u.2) p hp with h1 | ⟨q, hq, hq1⟩
      · exact Or.inl h1
      · exact Or.inr ⟨q, List.mem_cons_of_mem _ hq, hq1⟩
    · rw [if_neg hd] at hp
      rcases List.mem_cons.mp hp with h1 | h2
      · subst h1; exact Or.inl rfl
      · rcases ih u p h2 with h1 | ⟨q, hq, hq1⟩
        · exact Or.inr ⟨u, List.mem_cons_self _ _, h1⟩
        · exact Or.inr ⟨q, List.mem_cons_of_mem _ hq, hq1⟩

/-- `join_trims` is the identity on lists where no consecutive pair has
difference exactly 1 (no merge ever fires). -/
lemma join_trims_id_of_no_adjacent (ts : List (Int × Int))
    (h : List.Chain' (fun x y => y.1 - x.2 ≠ 1) ts) : join_trims ts = ts := by
  rw [join_trims]
  induction ts with
  | nil => rfl
  | cons t rest ih =>
    cases rest with
    | nil => simp [joinAux]
    | cons u rest' =>
      have hd : u.1 - t.2 ≠ 1 := (List.chain'_cons.mp h).1
      have htail := (List.chain'_cons.mp h).2
      simp only [joinAux, if_pos rfl, ne_eq, hd, not_false_eq_true, if_true]
      rw [ih htail]

lemma mergeAdjacentSpec_chain (ts : List (Int × Int)) :
    List.Chain' (fun x y => y.1 - x.2 ≠ 1) (mergeAdjacentSpec ts) := by
  cases ts with
  | nil => simp [mergeAdjacentSpec]
  | cons t rest => exact mergeAdjacentSpecAux_chain rest t

lemma mergeAdjacentSpec_starts (ts : List (Int × Int))
    (h : ∀ p ∈ ts, p.1 ≠ -1) : ∀ p ∈ mergeAdjacentSpec ts, p.1 ≠ -1 := by
  cases ts with
  | nil => simp [mergeAdjacentSpec]
  | cons t rest =>
    intro p hp
    rcases mergeAdjacentSpecAux_starts rest t p hp with h1 | ⟨q, hq, hq1⟩
    · exact h1 ▸ h t (List.mem_cons_self _ _)
    · exact hq1 ▸ h q (List.mem_cons_of_mem _ hq)

/-- Claim C5.  Under the claim's preconditions (ascending,
non-overlapping frame intervals), `join_trims` computes exactly the
spec-worded left-to-right adjacency merge, the two concrete examples
evaluate as stated, and re-running `join_trims` on its own output is a
no-op. -/
theorem claim_c5_merge_adjacent :
    (∀ ts : List (Int × Int), (∀ p ∈ ts, 0 ≤ p.1 ∧ p.1 ≤ p.2) →
        List.Chain' (fun p q => p.2 < q.1) ts →
        join_trims ts = mergeAdjacentSpec ts ∧
          join_trims (join_trims ts) = join_trims ts) ∧
    join_trims [(0, 99), (100, 199)] = [(0, 199)] ∧
    join_trims [(0, 99), (101, 199)] = [(0, 99), (101, 199)] := by
  refine ⟨?_, rfl, rfl⟩
  intro ts hpos _
  have hne : ∀ p ∈ ts, p.1 ≠ -1 := by
    intro p hp
    have := (hpos p hp).1
    omega
  have heq : join_trims ts = mergeAdjacentSpec ts := join_trims_eq_spec ts hne
  refine ⟨heq, ?_⟩
  rw [heq]
  exact join_trims_id_of_no_adjacent _ (mergeAdjacentSpec_chain ts)

/-- Witness for C5 at a concrete input satisfying its hypotheses. -/
theorem claim_c5_merge_adjacent_witness :
    join_trims [(0, 99), (100, 199)] = mergeAdjacentSpec [(0, 99), (100, 199)] ∧
      join_trims (join_trims [(0, 99), (100, 199)]) =
        join_trims [(0, 99), (100, 199)] :=
  claim_c5_merge_adjacent.1 [(0, 99), (100, 199)]
    (by decide) (by rw [List.chain'_pair]; decide)

/-- Counterexample to claim C6: on the overlapping input
`[(0,10),(5,20)]` (the second interval starts at 5 ≤ 10, the end of the
first), `join_trims` reports no error at all — it returns the input
unchanged, overlap included. -/
theorem claim_c6_counterexample :
    join_trims [(0, 10), (5, 20)] = [(0, 10), (5, 20)] ∧ (5 : Int) ≤ 10 :=
  ⟨rfl, by decide⟩

/-- Claim C6, amended.  `join_trims` performs no overlap detection and
has no error path: overlapping consecutive intervals have difference
`start[i+1] - end[i] ≤ 0 ≠ 1`, so they are passed through unmerged and
unmodified. -/
theorem claim_c6_amended (ts : List (Int × Int))
    (h : List.Chain' (fun p q => q.1 ≤ p.2) ts) : join_trims ts = ts := by
  apply join_trims_id_of_no_adjacent
  exact h.imp fun {x y} hxy => by omega

/-- Witness for the amended C6 at a concrete overlapping input. -/
theorem claim_c6_amended_witness :
    join_trims [(0, 10), (5, 20)] = [(0, 10), (5, 20)] :=
  claim_c6_amended [(0, 10), (5, 20)] (by rw [List.chain'_pair]; decide)

/-! ### `time_subs` as filter/map (claim C1) -/

lemma foldl_filter_step (t : Trim) (vfr : Bool) (fps : ℚ) :
    ∀ (subs : List SSAEvent) (acc : List SSAEvent),
      subs.foldl (fun acc2 line =>
        if t.start < line.stop ∧ line.start < t.stop then
          let s' := if line.start < t.start then t.start else line.start
          let e' := if line.stop > t.stop then t.stop else line.stop
          acc2 ++ [{ line with
            start := s' + evShiftAmount vfr fps t,
            stop := e' + evShiftAmount vfr fps t }]
        else acc2) acc =
      acc ++ (subs.filter fun l =>
          decide (t.start < l.stop ∧ l.start < t.stop)).map fun l =>
        { l with start := max l.start t.start + evShiftAmount vfr fps t,
                 stop := min l.stop t.stop + evShiftAmount vfr fps t } := by
  intro subs
  induction subs with
  | nil => intro acc; simp
  | cons l ls ih =>
    intro acc
    by_cases hov : t.start < l.stop ∧ l.start < t.stop
    · have hs : (if l.start < t.start then t.start else l.start) =
          max l.start t.start := by
        rcases lt_or_le l.start t.start with h | h
        · simp [h, max_eq_right h.le]
        · simp [not_lt.mpr h, max_eq_left h]
      have he : (if l.stop > t.stop then t.stop else l.stop) =
          min l.stop t.stop := by
        rcases lt_or_le t.stop l.stop with h | h
        · simp [h, min_eq_right h.le]
        · simp [not_lt.mpr h, min_eq_left h]
      simp only [List.foldl_cons, List.filter_cons, if_pos hov,
        decide_eq_true_eq, hov, List.map_cons]
      rw [ih, hs, he]
      simp
    · simp only [List.foldl_cons, List.filter_cons, if_neg hov,
        decide_eq_true_eq, hov, List.map_cons]
      rw [ih]
      simp

lemma foldl_append_flatMap {α β : Type} (g : α → List β) :
    ∀ (ts : List α) (acc : List β),
      ts.foldl (fun acc t => acc ++ g t) acc = acc ++ ts.flatMap g := by
  intro ts
  induction ts with
  | nil => intro acc; simp
  | cons t ts ih => intro acc; rw [List.foldl_cons, ih]; simp

/-- Claim C1.  `time_subs` produces, per interval in order, the events
strictly overlapping it (`event.end > interval.start` and
`event.start < interval.end`), clipped to
`start = max(event.start, interval.start)`,
`end = min(event.end, interval.end)` and then shifted by the interval's
own shift.  In particular an event overlapping two intervals yields one
output copy for each, and an event overlapping no interval yields
none. -/
theorem claim_c1_time_subs (trims : List Trim) (subs : List SSAEvent)
    (vfr : Bool) (fps : ℚ) :
    time_subs trims subs vfr fps =
      trims.flatMap fun t =>
        (subs.filter fun l =>
            decide (t.start < l.stop ∧ l.start < t.stop)).map fun l =>
          { l with start := max l.start t.start + evShiftAmount vfr fps t,
                   stop := min l.stop t.stop + evShiftAmount vfr fps t } := by
  rw [time_subs]
  have h : ∀ (acc : List SSAEvent),
      trims.foldl (fun acc trim =>
        subs.foldl (fun acc2 line =>
          if trim.start < line.stop ∧ line.start < trim.stop then
            let s' := if line.start < trim.start then trim.start else line.start
            let e' := if line.stop > trim.stop then trim.stop else line.stop
            acc2 ++ [{ line with
              start := s' + evShiftAmount vfr fps trim,
              stop := e' + evShiftAmount vfr fps trim }]
          else acc2) acc) acc =
      acc ++ trims.flatMap fun t =>
        (subs.filter fun l =>
            decide (t.start < l.stop ∧ l.start < t.stop)).map fun l =>
          { l with start := max l.start t.start + evShiftAmount vfr fps t,
                   stop := min l.stop t.stop + evShiftAmount vfr fps t } := by
    induction trims with
    | nil => intro acc; simp
    | cons t ts ih =>
      intro acc
      rw [List.foldl_cons, foldl_filter_step, ih]
      simp
  simpa using h []

/-! ### `read_trims` with an explicit line number (claim C7) -/

/-- Counterexample to claim C7: with an explicit line number, a
supplied label selector is _not_ ignored.  On the single-line script
`Trim(0,5) # cut`, line number 1 with label `other` fails with the
no-Trims-with-label error, while the same call without a label returns
the Trims of that line. -/
theorem claim_c7_counterexample :
    read_trims ["Trim(0,5) # cut".data] false "other".data (some 1) =
      .error .noLabel ∧
    read_trims ["Trim(0,5) # cut".data] false [] (some 1) = .ok [(0, 5)] ∧
    (Except.error ReadErr.noLabel ≠
      (Except.ok [((0 : Int), (5 : Int))] : Except ReadErr (List (Int × Int)))) :=
  ⟨rfl, rfl, fun h => Except.noConfusion h⟩

/-- Claim C7, amended.  When an explicit non-zero line number `n` is
given, only line `n` is examined — the call coincides with the same
call on the one-line slice `lines[n-1:n]` — but a supplied label
selector still applies to that line rather than being ignored; with no
label the two calls agree up to which no-Trims error is reported. -/
theorem claim_c7_amended :
    (∀ (lines : List (List Char)) (rev : Bool) (lab : List Char) (n : Int),
        n ≠ 0 → lab ≠ [] →
        read_trims lines rev lab (some n) =
          read_trims (pySlice lines (n-1) n) rev lab none) ∧
    (∀ (lines : List (List Char)) (rev : Bool) (n : Int), n ≠ 0 →
        (read_trims lines rev [] (some n)).toOption =
          (read_trims (pySlice lines (n-1) n) rev [] none).toOption) := by
  have hsel : ∀ (lines : List (List Char)) (n : Int), n ≠ 0 →
      selectLines lines (some n) = pySlice lines (n-1) n := by
    intro lines n hn
    dsimp only [selectLines]
    rw [if_pos hn]
  constructor
  · intro lines rev lab n hn hlab
    rw [read_trims, read_trims, hsel lines n hn]
    dsimp only [selectLines]
    rcases hfind : (seqOf (pySlice lines (n-1) n) rev).find?
        (fun l => matchesLine lab l) with _ | line
    · dsimp only
      simp [hlab]
    · rfl
  · intro lines rev n hn
    rw [read_trims, read_trims, hsel lines n hn]
    dsimp only [selectLines]
    rcases hfind : (seqOf (pySlice lines (n-1) n) rev).find?
        (fun l => matchesLine [] l) with _ | line
    · dsimp only
      simp [hn, Except.toOption]
    · rfl

/-- Witness for the amended C7 at a concrete input. -/
theorem claim_c7_amended_witness :
    read_trims ["Trim(0,5) # cut".data] false "cut".data (some 1) =
      read_trims (pySlice ["Trim(0,5) # cut".data] 0 1) false "cut".data none :=
  claim_c7_amended.1 ["Trim(0,5) # cut".data] false "cut".data 1
    (by decide) (by decide)

/-! ### Trim-pair semantics of `read_trims` (claim C3) -/

lemma mem_of_mem_pySlice {α : Type} {x : α} {xs : List α} {i j : Int}
    (h : x ∈ pySlice xs i j) : x ∈ xs := by
  have h1 := List.take_subset _ _ h
  exact List.drop_subset _ _ h1

lemma mem_of_mem_seqOf {x : List Char} {l : List (List Char)} {rev : Bool}
    (h : x ∈ seqOf l rev) : x ∈ l := by
  rcases rev with _ | _ <;> simpa [seqOf] using h

lemma mem_of_mem_selectLines {x : List Char} {lines : List (List Char)}
    {n : Option Int} (h : x ∈ selectLines lines n) : x ∈ lines := by
  rcases n with _ | m
  · exact h
  · dsimp only [selectLines] at h
    split at h
    · exact mem_of_mem_pySlice h
    · exact h

/-- Claim C3.  Every successful `read_trims` result comes from the
raw right-to-left pair scan of the first matching line, reversed and
mapped through the end-frame rule: a raw pair `(a, b)` yields `(a, b)`
itself when `b > 0` and `(a, a - b - 1)` when `b ≤ 0`; concretely,
`Trim(10,-5)` yields the kept range `(10, 14)`. -/
theorem claim_c3_trim_pairs :
    (∀ (lines : List (List Char)) (rev : Bool) (lab : List Char)
        (n : Option Int) (ps : List (Int × Int)),
        read_trims lines rev lab n = .ok ps →
        ∃ line ∈ lines, matchesLine lab line = true ∧
          ps = ((scanTrims line).reverse).map (fun p =>
            (p.1, if 0 < p.2 then p.2 else p.1 - p.2 - 1)) ∧
          ∀ p ∈ ps, ∃ q ∈ scanTrims line,
            (0 < q.2 ∧ p = q) ∨ (q.2 ≤ 0 ∧ p = (q.1, q.1 - q.2 - 1))) ∧
    read_trims ["Trim(10,-5)".data] false [] none = .ok [(10, 14)] := by
  constructor
  · intro lines rev lab n ps h
    rw [read_trims.eq_def] at h
    rcases hfind : (seqOf (selectLines lines n) rev).find?
        (fun l => matchesLine lab l) with _ | line
    · rw [hfind] at h
      dsimp only at h
      split at h
      · exact absurd h (by simp)
      · split at h
        · split at h <;> exact absurd h (by simp)
        · exact absurd h (by simp)
    · rw [hfind] at h
      dsimp only at h
      have hmem : line ∈ lines :=
        mem_of_mem_selectLines (mem_of_mem_seqOf (List.mem_of_find?_eq_some hfind))
      have hmatch := List.find?_some hfind
      refine ⟨line, hmem, hmatch, ?_, ?_⟩
      · exact ((Except.ok.injEq _ _).mp h).symm
      · intro p hp
        rw [← ((Except.ok.injEq _ _).mp h)] at hp
        rw [List.mem_map] at hp
        obtain ⟨q, hq, hpq⟩ := hp
        rw [List.mem_reverse] at hq
        refine ⟨q, hq, ?_⟩
        by_cases hb : 0 < q.2
        · left
          refine ⟨hb, ?_⟩
          rw [← hpq, if_pos hb]
        · right
          refine ⟨by omega, ?_⟩
          rw [← hpq, if_neg hb]
  · rfl

/-- Witness for C3: the general part instantiated at a concrete
successful call. -/
theorem claim_c3_trim_pairs_witness :
    ∃ line ∈ ["Trim(10,-5)".data], matchesLine [] line = true ∧
      [((10 : Int), (14 : Int))] = ((scanTrims line).reverse).map (fun p =>
        (p.1, if 0 < p.2 then p.2 else p.1 - p.2 - 1)) ∧
      ∀ p ∈ [((10 : Int), (14 : Int))], ∃ q ∈ scanTrims line,
        (0 < q.2 ∧ p = q) ∨ (q.2 ≤ 0 ∧ p = (q.1, q.1 - q.2 - 1)) :=
  claim_c3_trim_pairs.1 ["Trim(10,-5)".data] false [] none [(10, 14)] rfl

/-! ### Unguarded accesses of `sub_subs` (claim C10) -/

lemma cutLines_ok (a b off : Int) :
    ∀ ls : List (List Char), (∀ l ∈ ls, (parseSubHead l).isSome) →
      ∃ out, cutLines a b off ls = .ok out := by
  intro ls
  induction ls with
  | nil => intro _; exact ⟨[], rfl⟩
  | cons l ls ih =>
    intro h
    obtain ⟨v, hv⟩ := Option.isSome_iff_exists.mp (h l (List.mem_cons_self _ _))
    obtain ⟨out, hout⟩ := ih fun x hx => h x (List.mem_cons_of_mem _ hx)
    rw [cutLines, hv, hout]
    obtain ⟨d1, d2, rest⟩ := v
    dsimp only
    split
    · exact ⟨_, rfl⟩
    · exact ⟨_, rfl⟩

lemma subLoop_not_noMatch (linesIn : List (List Char))
    (hp : ∀ l ∈ linesIn, (parseSubHead l).isSome) :
    ∀ (ts : List (Int × Int)) (prev : Int) (nl : List (List Char)),
      subLoop linesIn ts prev nl ≠ .error .noMatch := by
  intro ts
  induction ts with
  | nil => intro prev nl h; exact Except.noConfusion h
  | cons t ts ih =>
    intro prev nl
    obtain ⟨a, b⟩ := t
    obtain ⟨out, hout⟩ := cutLines_ok a b (a - prev - 1) linesIn hp
    rw [subLoop, hout]
    dsimp only
    rcases hfix : fixLastNl (nl ++ out) with _ | nl'
    · intro h
      exact SubErr.noConfusion ((Except.error.injEq _ _).mp h)
    · exact ih (b - (a - prev - 1)) nl'

/-- Claim C10.  When every input line (the first included) begins with
a `{digits}{digits}` frame pair, the unguarded `findall(...)[0]`
accesses of `sub_subs` never fail; on a line without that prefix, or on
an empty input, the operation instead fails with an out-of-range access
(no named error of the spec exists for it). -/
theorem claim_c10_sub_subs_accesses :
    (∀ (trims : List (Int × Int)) (lines : List (List Char)),
        lines ≠ [] → (∀ l ∈ lines, (parseSubHead l).isSome) →
        sub_subs trims lines ≠ .error .noMatch) ∧
    sub_subs [(0, 5)] ["x".data] = .error .noMatch ∧
    sub_subs [(0, 5)] [] = .error .emptyInput := by
  refine ⟨?_, rfl, rfl⟩
  intro trims lines hne hp
  match lines with
  | [] => exact absurd rfl hne
  | l0 :: rest =>
    obtain ⟨v, hv⟩ := Option.isSome_iff_exists.mp (hp l0 (List.mem_cons_self _ _))
    obtain ⟨d1, d2, r0⟩ := v
    have hprest : ∀ l ∈ rest, (parseSubHead l).isSome := fun l hl =>
      hp l (List.mem_cons_of_mem _ hl)
    rw [sub_subs, hv]
    dsimp only
    split
    · exact subLoop_not_noMatch rest hprest trims (-1) [l0]
    · exact subLoop_not_noMatch (l0 :: rest) hp trims (-1) []

/-- Witness for C10: the precondition part at a concrete input. -/
theorem claim_c10_sub_subs_accesses_witness :
    sub_subs [(0, 5)] ["{1}{1}h\n".data] ≠ .error .noMatch :=
  claim_c10_sub_subs_accesses.1 [(0, 5)] ["{1}{1}h\n".data]
    (by simp) (by decide)

/-! ### Output-file ordering of `main` (claim C8) -/

/-- Counterexample to claim C8: in the run `cfgC8` (timecode output
requested, subtitle decoding fails after the trims have been mapped to
time), the run fails but the output timecode file has already been
written — outputs are not all-or-nothing. -/
theorem claim_c8_counterexample :
    main_model cfgC8 = ([WriteEv.otcFile], .error .decode) ∧
    ([WriteEv.otcFile] : List WriteEv) ≠ [] :=
  ⟨rfl, by simp⟩

/-- Claim C8, amended.  The subtitle output file is all-or-nothing
(written only when the whole run succeeds), and on a failing run at
most the optional timecode file has been written; but that timecode
file is written as soon as the frame-to-time mapping succeeds — before
subtitle decoding and processing — so a later subtitle-stage failure
leaves it already written.  It is written exactly on runs that request
it and whose pipeline reaches a successful `frames2time`. -/
theorem claim_c8_amended :
    (∀ (cfg : MainCfg) (e : MainErr), (main_model cfg).2 = .error e →
        WriteEv.subFile ∉ (main_model cfg).1) ∧
    (∀ (cfg : MainCfg) (e : MainErr), (main_model cfg).2 = .error e →
        (main_model cfg).1 = [] ∨ (main_model cfg).1 = [WriteEv.otcFile]) ∧
    (∀ cfg : MainCfg, WriteEv.otcFile ∈ (main_model cfg).1 →
        cfg.otc = true ∧ ∃ tf, read_trims cfg.avsLines cfg.reversed_
            cfg.label cfg.line_number = .ok tf ∧
          (frames2time (join_trims tf) cfg.fps cfg.vfr cfg.tcLines).isOk) := by
  refine ⟨?_, ?_, ?_⟩
  · intro cfg e h
    obtain ⟨avs, rev, lab, ln, vfr, fps, tc, otc, inp, sl, dec⟩ := cfg
    rw [main_model] at h ⊢
    dsimp only at h ⊢
    rcases hr : read_trims avs rev lab ln with er | tf
    · simp
    · rw [hr] at h
      dsimp only at h ⊢
      rcases hf : frames2time (join_trims tf) fps vfr tc with ef | pr
      · simp
      · rw [hf] at h
        dsimp only at h ⊢
        rcases inp with _ | b
        · exact Except.noConfusion h
        · rcases b with _ | _
          · rcases dec with u | evs
            · rcases otc with _ | _ <;> simp
            · exact Except.noConfusion h
          · rcases hs : sub_subs (join_trims tf) sl with es | out
            · rw [hs] at h
              rcases otc with _ | _ <;> simp
            · rw [hs] at h
              exact Except.noConfusion h
  · intro cfg e h
    obtain ⟨avs, rev, lab, ln, vfr, fps, tc, otc, inp, sl, dec⟩ := cfg
    rw [main_model] at h ⊢
    dsimp only at h ⊢
    rcases hr : read_trims avs rev lab ln with er | tf
    · left; rfl
    · rw [hr] at h
      dsimp only at h ⊢
      rcases hf : frames2time (join_trims tf) fps vfr tc with ef | pr
      · left; rfl
      · rw [hf] at h
        dsimp only at h ⊢
        rcases inp with _ | b
        · exact Except.noConfusion h
        · rcases b with _ | _
          · rcases dec with u | evs
            · rcases otc with _ | _
              · left; rfl
              · right; rfl
            · exact Except.noConfusion h
          · rcases hs : sub_subs (join_trims tf) sl with es | out
            · rcases otc with _ | _
              · left; rfl
              · right; rfl
            · rw [hs] at h
              exact Except.noConfusion h
  · intro cfg h
    obtain ⟨avs, rev, lab, ln, vfr, fps, tc, otc, inp, sl, dec⟩ := cfg
    rw [main_model] at h
    dsimp only at h
    rcases hr : read_trims avs rev lab ln with er | tf
    · rw [hr] at h
      exact absurd h (by simp)
    · rw [hr] at h
      dsimp only at h
      rcases hf : frames2time (join_trims tf) fps vfr tc with ef | pr
      · rw [hf] at h
        exact absurd h (by simp)
      · have hok : (frames2time (join_trims tf) fps vfr tc).isOk := by
          rw [hf]; rfl
        rw [hf] at h
        dsimp only at h
        refine ⟨?_, tf, rfl, hok⟩
        rcases otc with _ | _
        · exfalso
          rcases inp with _ | b
          · exact absurd h (by simp)
          · rcases b with _ | _
            · rcases dec with u | evs <;> exact absurd h (by simp)
            · rcases hs : sub_subs (join_trims tf) sl with es | out <;>
                rw [hs] at h <;> exact absurd h (by simp)
        · rfl

/-- Witness for the amended C8: the all-or-nothing subtitle part and
the timecode part, at the concrete failing run `cfgC8`. -/
theorem claim_c8_amended_witness :
    WriteEv.subFile ∉ (main_model cfgC8).1 ∧
      (cfgC8.otc = true ∧ ∃ tf, read_trims cfgC8.avsLines cfgC8.reversed_
          cfgC8.label cfgC8.line_number = .ok tf ∧
        (frames2time (join_trims tf) cfgC8.fps cfgC8.vfr cfgC8.tcLines).isOk) :=
  ⟨claim_c8_amended.1 cfgC8 .decode rfl,
   claim_c8_amended.2.2 cfgC8
     (List.mem_cons_self _ _ : WriteEv.otcFile ∈ (main_model cfgC8).1)⟩

/-! ### Contiguity of the mapped timeline (claim C2) -/

/-- Counterexample to claim C2: on the timecode table `tblC2` (values
0, 0.4, 0.8, 1.2, 1.6 ms) and trims `[(1,1),(3,3)]`, `frames2time`
succeeds but the produced Trims — whose times and shifts are rounded to
whole milliseconds by `time_format` — violate the claimed contiguity:
the second Trim's shifted start is 0 while the first Trim's shifted end
is 1. -/
theorem claim_c2_counterexample :
    (frames2time_vfr [(1, 1), (3, 3)] tblC2).isOk = true ∧
    ¬ vfrContiguous (f2tTrims [(1, 1), (3, 3)] tblC2) := by
  refine ⟨rfl, ?_⟩
  intro hc
  have h0 : f2tTrims [(1, 1), (3, 3)] tblC2 =
      [⟨(pyRound (2/5) : ℚ), (pyRound (4/5) : ℚ), none,
          some (pyRound (-(2/5 - 0)))⟩,
        ⟨(pyRound (6/5) : ℚ), (pyRound (8/5) : ℚ), none,
          some (pyRound (-(6/5 - (4/5 - (2/5 - 0)))))⟩] := rfl
  have he : f2tTrims [(1, 1), (3, 3)] tblC2 =
      [⟨0, 1, none, some 0⟩, ⟨1, 2, none, some (-1)⟩] := by
    rw [h0]
    norm_num [pyRound]
  rw [he] at hc
  obtain ⟨-, hchain⟩ := hc
  rw [List.chain'_pair] at hchain
  norm_num [shiftedStart, shiftedStop] at hchain

lemma cfrLoop_contig (fps : ℚ) :
    ∀ (ts : List (Int × Int)) (pe : Int),
      (∀ p ∈ (ts.zip (cfrLoop fps ts pe).1).head?, p.1.1 + fsOf p.2 = pe) ∧
      List.Chain' (fun x y => y.1.1 + fsOf y.2 = x.1.2 + 1 + fsOf x.2)
        (ts.zip (cfrLoop fps ts pe).1) := by
  intro ts
  induction ts with
  | nil =>
    intro pe
    exact ⟨by intro p hp; simp at hp, by simp⟩
  | cons t ts ih =>
    intro pe
    obtain ⟨a, b⟩ := t
    rw [cfrLoop]
    dsimp only
    constructor
    · intro p hp
      simp only [List.zip_cons_cons, List.head?_cons, Option.mem_def,
        Option.some.injEq] at hp
      subst hp
      simp [fsOf]
    · rw [List.zip_cons_cons, List.chain'_cons']
      refine ⟨?_, (ih (b + 1 - (a - pe))).2⟩
      intro y hy
      have hhead := (ih (b + 1 - (a - pe))).1 y hy
      rw [hhead]
      simp only [fsOf, Option.getD_some]
      ring

lemma vfrLoop_contig :
    ∀ (trims : List (Int × Int)) (lines : List ℚ) (pe : ℚ)
      (steps : List VfrStep), vfrLoop lines pe trims = .ok steps →
      (∀ st ∈ steps.head?, st.s - st.gap = pe) ∧
      List.Chain' (fun x y => y.s - y.gap = x.e - x.gap) steps := by
  intro trims
  induction trims with
  | nil =>
    intro lines pe steps h
    rw [vfrLoop] at h
    have : steps = [] := ((Except.ok.injEq _ _).mp h).symm
    subst this
    exact ⟨by intro st hst; simp at hst, by simp⟩
  | cons t ts ih =>
    intro lines pe steps h
    obtain ⟨a, b⟩ := t
    rw [vfrLoop] at h
    rcases hga : pyGet lines a with _ | s
    · rw [hga] at h
      exact absurd h (by simp)
    · rw [hga] at h
      dsimp only at h
      rcases hgb : pyGet lines (b + 1) with _ | v
      · rw [hgb] at h
        dsimp only at h
        rcases hg1 : pyGet lines (-1) with _ | l1
        · rw [hg1] at h
          exact absurd h (by simp)
        · rw [hg1] at h
          rcases hg2 : pyGet lines (-2) with _ | l2
          · rw [hg2] at h
            exact absurd h (by simp)
          · rw [hg2] at h
            dsimp only at h
            rcases hrec : vfrLoop (lines ++ [2 * l1 - l2])
                (2 * l1 - l2 - (s - pe)) ts with e | tail
            · rw [hrec] at h
              exact absurd h (by simp)
            · rw [hrec] at h
              have hsteps : steps = ⟨s, 2 * l1 - l2, s - pe,
                  lines ++ [2 * l1 - l2]⟩ :: tail :=
                ((Except.ok.injEq _ _).mp h).symm
              subst hsteps
              obtain ⟨ihh, ihc⟩ := ih _ _ _ hrec
              refine ⟨?_, ?_⟩
              · intro st hst
                simp only [List.head?_cons, Option.mem_def,
                  Option.some.injEq] at hst
                subst hst
                ring
              · rw [List.chain'_cons']
                refine ⟨?_, ihc⟩
                intro y hy
                rw [ihh y hy]
      · rw [hgb] at h
        dsimp only at h
        rcases hrec : vfrLoop lines (v - (s - pe)) ts with e | tail
        · rw [hrec] at h
          exact absurd h (by simp)
        · rw [hrec] at h
          have hsteps : steps = ⟨s, v, s - pe, lines⟩ :: tail :=
            ((Except.ok.injEq _ _).mp h).symm
          subst hsteps
          obtain ⟨ihh, ihc⟩ := ih _ _ _ hrec
          refine ⟨?_, ?_⟩
          · intro st hst
            simp only [List.head?_cons, Option.mem_def,
              Option.some.injEq] at hst
            subst hst
            ring
          · rw [List.chain'_cons']
            refine ⟨?_, ihc⟩
            intro y hy
            rw [ihh y hy]

/-- Claim C2, amended.  In the constant-fps mode contiguity holds
exactly, in frame units: pairing each input interval with its produced
Trim, the first shifted start `a₀ + frameShift₀` is 0 and each
subsequent `aᵢ + frameShiftᵢ` equals the previous `bᵢ₋₁ + 1 +
frameShiftᵢ₋₁`.  In the timecode mode contiguity holds exactly for the
unrounded table-derived values: the first `start − gap` is 0 and each
subsequent `start − gap` equals the previous `end − gap`; the stored
Trim fields are exactly these values rounded to whole milliseconds by
`time_format` (`pyRound`), so the stored shifted endpoints can disagree
by sub-millisecond rounding. -/
theorem claim_c2_amended :
    (∀ (trims : List (Int × Int)) (fps : ℚ),
        (∀ p ∈ (trims.zip (frames2time_cfr trims fps).1).head?,
            p.1.1 + fsOf p.2 = 0) ∧
        List.Chain' (fun x y => y.1.1 + fsOf y.2 = x.1.2 + 1 + fsOf x.2)
          (trims.zip (frames2time_cfr trims fps).1)) ∧
    (∀ (tc : List ℚ) (trims : List (Int × Int)) (steps : List VfrStep),
        vfrLoop tc 0 trims = .ok steps →
        (∀ st ∈ steps.head?, st.s - st.gap = 0) ∧
        List.Chain' (fun x y => y.s - y.gap = x.e - x.gap) steps) ∧
    (∀ (trims : List (Int × Int)) (tc : List ℚ) (ts : List Trim)
        (nl : List ℚ), frames2time_vfr trims tc = .ok (ts, nl) →
        ∃ steps, vfrLoop tc 0 trims = .ok steps ∧
          ts = steps.map fun st =>
            { start := (pyRound st.s : ℚ), stop := (pyRound st.e : ℚ),
              frame_shift := none, time_shift := some (pyRound (-st.gap)) }) := by
  refine ⟨?_, ?_, ?_⟩
  · intro trims fps
    have h := cfrLoop_contig fps trims 0
    rw [frames2time_cfr]
    exact h
  · intro tc trims steps h
    exact vfrLoop_contig trims tc 0 steps h
  · intro trims tc ts nl h
    rw [frames2time_vfr] at h
    rcases hv : vfrLoop tc 0 trims with e | steps
    · rw [hv] at h
      exact absurd h (by simp)
    · rw [hv] at h
      dsimp only at h
      have := (Prod.mk.injEq _ _ _ _).mp ((Except.ok.injEq _ _).mp h)
      exact ⟨steps, rfl, this.1.symm⟩

/-- Witness for the amended C2: the timecode part at the concrete run
on `tblC2`. -/
theorem claim_c2_amended_witness :
    (∀ st ∈ ([⟨2/5, 4/5, 2/5 - 0, tblC2⟩,
        ⟨6/5, 8/5, 6/5 - (4/5 - (2/5 - 0)), tblC2⟩] : List VfrStep).head?,
        st.s - st.gap = 0) ∧
    List.Chain' (fun x y => y.s - y.gap = x.e - x.gap)
      ([⟨2/5, 4/5, 2/5 - 0, tblC2⟩,
        ⟨6/5, 8/5, 6/5 - (4/5 - (2/5 - 0)), tblC2⟩] : List VfrStep) :=
  claim_c2_amended.2.1 tblC2 [(1, 1), (3, 3)]
    [⟨2/5, 4/5, 2/5 - 0, tblC2⟩,
      ⟨6/5, 8/5, 6/5 - (4/5 - (2/5 - 0)), tblC2⟩] rfl

/-! ### The frame-indexed cutter (claim C4) -/

lemma takeWhile_append_drop (p : Char → Bool) (l : List Char) :
    l.takeWhile p ++ l.drop (l.takeWhile p).length = l := by
  induction l with
  | nil => rfl
  | cons x xs ih =>
    by_cases hx : p x
    · simp only [List.takeWhile_cons, hx, if_pos, List.length_cons,
        List.drop_succ_cons, List.cons_append, List.cons.injEq, true_and]
      exact ih
    · simp [List.takeWhile_cons, hx]

lemma parseSubHead_shape {l d1 d2 r : List Char}
    (h : parseSubHead l = some (d1, d2, r)) :
    l = ('{' :: d1 ++ '}' :: '{' :: d2 ++ ['}']) ++ r := by
  rw [parseSubHead.eq_def] at h
  split at h
  case _ rest =>
    dsimp only at h
    split at h
    · exact absurd h (by simp)
    · rename_i hemp1
      split at h
      case _ rest2 heq1 =>
        split at h
        · exact absurd h (by simp)
        · rename_i hemp2
          split at h
          case _ rest3 heq2 =>
            have h1 := takeWhile_append_drop Char.isDigit rest
            have h2 := takeWhile_append_drop Char.isDigit rest2
            rw [heq1] at h1
            rw [heq2] at h2
            simp only [Option.some.injEq, Prod.mk.injEq] at h
            obtain ⟨hd1, hd2, hr⟩ := h
            subst hd1; subst hd2; subst hr
            have hrest : rest = List.takeWhile Char.isDigit rest ++ '}' :: '{' ::
                (List.takeWhile Char.isDigit rest2 ++ '}' :: rest3) :=
              h1.symm.trans (congrArg (fun z =>
                List.takeWhile Char.isDigit rest ++ '}' :: '{' :: z) h2.symm)
            conv_lhs => rw [hrest]
            simp
          case _ => exact absurd h (by simp)
      case _ => exact absurd h (by simp)
  case _ => exact absurd h (by simp)

lemma endsNl_append_right {r : List Char} (xs : List Char) (hr : r ≠ []) :
    endsNl (xs ++ r) = endsNl r := by
  rw [endsNl, endsNl, List.getLast?_append_of_ne_nil xs hr]

lemma endsNl_renderSub (s e : Int) {r : List Char} (hr : endsNl r = true) :
    endsNl (renderSub s e r) = true := by
  have hne : r ≠ [] := by
    intro hnil
    rw [hnil] at hr
    simp [endsNl] at hr
  have hform : renderSub s e r =
      ('{' :: (toString s).data ++ '}' :: '{' :: (toString e).data ++ ['}']) ++ r := by
    simp [renderSub]
  rw [hform, endsNl_append_right _ hne]
  exact hr

lemma endsNl_of_parse {l d1 d2 r : List Char}
    (h : parseSubHead l = some (d1, d2, r)) (hl : endsNl l = true) :
    endsNl r = true := by
  have hshape := parseSubHead_shape h
  rcases hr : r with _ | ⟨c, cs⟩
  · subst hr
    rw [hshape, List.append_nil] at hl
    have : endsNl ('{' :: d1 ++ '}' :: '{' :: d2 ++ ['}']) = false := by
      have hform : '{' :: d1 ++ '}' :: '{' :: d2 ++ ['}'] =
          ('{' :: d1 ++ '}' :: '{' :: d2) ++ ['}'] := by simp
      rw [hform, endsNl_append_right _ (by simp)]
      rfl
    rw [this] at hl
    exact Bool.noConfusion hl
  · rw [hshape, endsNl_append_right _ (by simp [hr])] at hl
    rw [← hr]
    exact hl

lemma cutLines_eq (a b off : Int) :
    ∀ ls : List (List Char), (∀ l ∈ ls, (parseSubHead l).isSome) →
      cutLines a b off ls = .ok (ls.filterMap fun l => cutSpecLine a b off l) := by
  intro ls
  induction ls with
  | nil => intro _; rfl
  | cons l ls ih =>
    intro h
    obtain ⟨v, hv⟩ := Option.isSome_iff_exists.mp (h l (List.mem_cons_self _ _))
    obtain ⟨d1, d2, r⟩ := v
    rw [cutLines, hv, ih fun x hx => h x (List.mem_cons_of_mem _ hx),
      List.filterMap_cons, cutSpecLine, hv]
    dsimp only
    by_cases hov : ((digitsVal d1 : Nat) : Int) < b ∧ ((digitsVal d2 : Nat) : Int) > a
    · rw [if_pos hov, if_pos hov]
      have hclip1 : (if ((digitsVal d1 : Nat) : Int) < a then a
          else ((digitsVal d1 : Nat) : Int)) = max ((digitsVal d1 : Nat) : Int) a := by
        rcases lt_or_le ((digitsVal d1 : Nat) : Int) a with hlt | hle
        · rw [if_pos hlt, max_eq_right hlt.le]
        · rw [if_neg (not_lt.mpr hle), max_eq_left hle]
      have hclip2 : (if ((digitsVal d2 : Nat) : Int) > b then b
          else ((digitsVal d2 : Nat) : Int)) = min ((digitsVal d2 : Nat) : Int) b := by
        rcases lt_or_le b ((digitsVal d2 : Nat) : Int) with hlt | hle
        · rw [if_pos hlt, min_eq_right hlt.le]
        · rw [if_neg (not_lt.mpr hle), min_eq_left hle]
      rw [hclip1, hclip2]
    · rw [if_neg hov, if_neg hov]

lemma mem_cutSpecLine_endsNl {a b off : Int} {l out : List Char}
    (hl : endsNl l = true) (h : cutSpecLine a b off l = some out) :
    endsNl out = true := by
  rw [cutSpecLine] at h
  rcases hp : parseSubHead l with _ | v
  · rw [hp] at h
    exact absurd h (by simp)
  · obtain ⟨d1, d2, r⟩ := v
    rw [hp] at h
    dsimp only at h
    split at h
    · rw [← Option.some.inj h]
      exact endsNl_renderSub _ _ (endsNl_of_parse hp hl)
    · exact absurd h (by simp)

lemma subLoop_eq (linesIn : List (List Char))
    (hp : ∀ l ∈ linesIn, (parseSubHead l).isSome ∧ endsNl l = true) :
    ∀ (ts : List (Int × Int)) (p : Int) (nl : List (List Char)), nl ≠ [] →
      (∀ x ∈ nl, endsNl x = true) →
      subLoop linesIn ts p nl = .ok (nl ++ cutSpec linesIn ts (p + 1)) := by
  intro ts
  induction ts with
  | nil =>
    intro p nl _ _
    rw [subLoop, cutSpec, List.append_nil]
  | cons t ts ih =>
    intro p nl hne hnl
    obtain ⟨a, b⟩ := t
    have hparse : ∀ l ∈ linesIn, (parseSubHead l).isSome := fun l hl => (hp l hl).1
    rw [subLoop, cutLines_eq a b (a - p - 1) linesIn hparse]
    dsimp only
    have hoff : a - p - 1 = a - (p + 1) := by ring
    set added := linesIn.filterMap fun l => cutSpecLine a b (a - p - 1) l with hadded
    have haddnl : ∀ x ∈ added, endsNl x = true := by
      intro x hx
      rw [hadded, List.mem_filterMap] at hx
      obtain ⟨l, hl, hcut⟩ := hx
      exact mem_cutSpecLine_endsNl (hp l hl).2 hcut
    have hne2 : nl ++ added ≠ [] := by
      intro hcon
      exact hne (List.append_eq_nil.mp hcon).1
    obtain ⟨last, hlast⟩ := Option.isSome_iff_exists.mp
      (Option.isSome_iff_ne_none.mpr (mt List.getLast?_eq_none_iff.mp hne2))
    have hlastnl : endsNl last = true := by
      have hmem := List.mem_of_mem_getLast? hlast
      rcases List.mem_append.mp hmem with hm | hm
      · exact hnl last hm
      · exact haddnl last hm
    rw [fixLastNl, hlast]
    dsimp only
    rw [if_pos hlastnl]
    rw [ih (b - (a - p - 1)) (nl ++ added) hne2 (by
      intro x hx
      rcases List.mem_append.mp hx with hm | hm
      · exact hnl x hm
      · exact haddnl x hm)]
    rw [cutSpec]
    have hkept : b - (a - p - 1) + 1 = p + 1 + (b - a + 1) := by ring
    rw [hkept, hadded, hoff]
    simp [List.append_assoc]

/-- Claim C4.  Under the stated input shape (a `{1}{1}` header line and
frame-pair lines, newline-terminated), `sub_subs` keeps the header and
otherwise equals the spec-side cutter: per interval, in order, the
lines kept under the strict overlap test, clipped with max/min, and
shifted by `frame − offset` where the interval's offset
`start − previousKeptEndFrame − 1` equals `start − keptBefore`, the
cumulative count of source frames skipped before the interval
(`cutSpec` carries exactly that cumulative form). -/
theorem claim_c4_sub_subs_cut :
    ∀ (trims : List (Int × Int)) (h0 : List Char) (rest : List (List Char))
      (d1 d2 r0 : List Char),
      parseSubHead h0 = some (d1, d2, r0) → d1 = ['1'] → d2 = ['1'] →
      (∀ l ∈ h0 :: rest, (parseSubHead l).isSome ∧ endsNl l = true) →
      sub_subs trims (h0 :: rest) = .ok (h0 :: cutSpec rest trims 0) := by
  intro trims h0 rest d1 d2 r0 hparse hd1 hd2 hall
  rw [sub_subs, hparse]
  dsimp only
  rw [if_pos ⟨hd1, hd2⟩]
  have hrest : ∀ l ∈ rest, (parseSubHead l).isSome ∧ endsNl l = true :=
    fun l hl => hall l (List.mem_cons_of_mem _ hl)
  have h := subLoop_eq rest hrest trims (-1) [h0] (by simp)
    (by
      intro x hx
      rw [List.mem_singleton] at hx
      rw [hx]
      exact (hall h0 (List.mem_cons_self _ _)).2)
  rw [h]
  norm_num

/-- Witness for C4 at a concrete input: header plus one line spanning
both intervals. -/
theorem claim_c4_sub_subs_cut_witness :
    sub_subs [(2, 4), (6, 8)] ["{1}{1}h\n".data, "{0}{9}A\n".data] =
      .ok ("{1}{1}h\n".data :: cutSpec ["{0}{9}A\n".data] [(2, 4), (6, 8)] 0) :=
  claim_c4_sub_subs_cut [(2, 4), (6, 8)] "{1}{1}h\n".data ["{0}{9}A\n".data]
    ['1'] ['1'] "h\n".data (by decide) rfl rfl (by decide)

/-! ### Round trip of timecode emission (claim C9) -/

lemma pyRound_intCast (n : Int) : pyRound (n : ℚ) = n := by
  rw [pyRound]
  norm_num

lemma q3_msMult {x : ℚ} (h : isMsMult x) : q3 x = x := by
  obtain ⟨n, hn⟩ := h
  subst hn
  rw [q3]
  rw [div_mul_cancel₀ (n : ℚ) (by norm_num : (1000 : ℚ) ≠ 0)]
  rw [pyRound_intCast]

lemma isMsMult_zero : isMsMult 0 := ⟨0, by norm_num⟩

lemma isMsMult_sub {x y : ℚ} (hx : isMsMult x) (hy : isMsMult y) :
    isMsMult (x - y) := by
  obtain ⟨n, hn⟩ := hx
  obtain ⟨m, hm⟩ := hy
  exact ⟨n - m, by rw [hn, hm]; push_cast; ring⟩

lemma isMsMult_getD {tc : List ℚ} (h : ∀ v ∈ tc, isMsMult v) (f : Nat) :
    isMsMult (tc.getD f 0) := by
  rcases hg : tc.get? f with _ | x
  · have hlen := List.get?_eq_none.mp hg
    rw [List.getD_eq_getD_get?, hg]
    exact isMsMult_zero
  · rw [List.getD_eq_getD_get?, hg]
    exact h x (List.get?_mem hg)

lemma pyGet_natCast (xs : List ℚ) (a : Nat) : pyGet xs (a : Int) = xs.get? a := by
  rw [pyGet]
  rw [if_neg (by omega : ¬((a : Int) < 0))]
  rw [if_pos (by omega : (0 : Int) ≤ (a : Int))]
  rw [Int.toNat_natCast]

lemma get?_eq_some_getD {α : Type} (xs : List α) (d : α) (n : Nat)
    (h : n < xs.length) : xs.get? n = some (xs.getD n d) := by
  rcases hg : xs.get? n with _ | x
  · exact absurd (List.get?_eq_none.mp hg) (by omega)
  · rw [List.getD_eq_getD_get?, hg]
    rfl

/-- Counterexample to claim C9: on the table `tblC9` (values 0,
0.0004, 1 ms) and the kept interval `(0, 1)`, the run succeeds and
emits the table `[0, 0, 1]` (the 3-decimal formatting rounds 0.0004
down to 0), so the duration of frame 0 at its image on the output
timeline is 0, not the original `0.0004`. -/
theorem claim_c9_counterexample :
    (frames2time_vfr [(0, 1)] tblC9).isOk = true ∧
    f2tNewLines [(0, 1)] tblC9 = [0, 0, 1] ∧
    emittedDur [0, 0, 1] (imgOf [(0, 1)] 0 0) ≠ tableDur tblC9 0 := by
  refine ⟨rfl, ?_, ?_⟩
  · have h0 : f2tNewLines [(0, 1)] tblC9 =
        [0, q3 (1/2500 - (0 - 0)), q3 (1 - (0 - 0))] := rfl
    rw [h0]
    norm_num [q3, pyRound]
  · norm_num [emittedDur, imgOf, keptBefore, tableDur, tblC9]

lemma vfrLoop_nb :
    ∀ (trimsN : List (Nat × Nat)) (tc : List ℚ) (pe : ℚ),
      (∀ p ∈ trimsN, p.1 ≤ p.2) → (∀ p ∈ trimsN, p.2 + 1 < tc.length) →
      vfrLoop tc pe (natTrims trimsN) = .ok (vfrStepsNB tc pe trimsN) := by
  intro trimsN
  induction trimsN with
  | nil => intro tc pe _ _; rfl
  | cons t ts ih =>
    intro tc pe hv hb
    obtain ⟨a, b⟩ := t
    have hvab : a ≤ b := hv _ (List.mem_cons_self _ _)
    have hb1 : b + 1 < tc.length := hb _ (List.mem_cons_self _ _)
    rw [show natTrims ((a, b) :: ts) =
      ((a : Int), (b : Int)) :: natTrims ts from rfl]
    rw [vfrLoop, pyGet_natCast, get?_eq_some_getD tc 0 a (by omega)]
    dsimp only
    rw [show ((b : Int) + 1) = ((b + 1 : Nat) : Int) by push_cast; ring]
    rw [pyGet_natCast, get?_eq_some_getD tc 0 (b+1) hb1]
    dsimp only
    rw [ih tc _ (fun p hp => hv p (List.mem_cons_of_mem _ hp))
      (fun p hp => hb p (List.mem_cons_of_mem _ hp))]
    rfl

lemma flatMap_zip_segsNB :
    ∀ (trimsN : List (Nat × Nat)) (tc : List ℚ) (pe : ℚ),
      ((natTrims trimsN).zip (vfrStepsNB tc pe trimsN)).flatMap (fun pr =>
        (pySlice pr.2.linesAfter (pr.1.1 + 1) (pr.1.2 + 2)).map
          fun v => q3 (v - pr.2.gap)) = segsNB tc pe trimsN := by
  intro trimsN
  induction trimsN with
  | nil => intro tc pe; rfl
  | cons t ts ih =>
    intro tc pe
    obtain ⟨a, b⟩ := t
    rw [show natTrims ((a, b) :: ts) =
      ((a : Int), (b : Int)) :: natTrims ts from rfl]
    rw [vfrStepsNB, List.zip_cons_cons, List.flatMap_cons, ih tc]
    rfl

lemma pySlice_nb (tc : List ℚ) (a b : Nat) (hlen : b + 2 ≤ tc.length) :
    pySlice tc ((a : Int) + 1) ((b : Int) + 2) =
      (tc.drop (a+1)).take (b + 1 - a) := by
  have hcast1 : ((a : Int) + 1) = ((a + 1 : Nat) : Int) := by push_cast; ring
  have hcast2 : ((b : Int) + 2) = ((b + 2 : Nat) : Int) := by push_cast; ring
  rw [pySlice, hcast1, hcast2, pyIdxNorm, pyIdxNorm]
  rw [if_neg (by omega : ¬(((a + 1 : Nat) : Int) < 0))]
  rw [if_neg (by omega : ¬(((b + 2 : Nat) : Int) < 0))]
  rw [Int.toNat_natCast, Int.toNat_natCast]
  rw [min_eq_left (by omega : b + 2 ≤ tc.length)]
  rcases le_or_lt (a + 1) tc.length with hle | hgt
  · rw [min_eq_left hle]
    congr 1
    omega
  · rw [min_eq_right (by omega : tc.length ≤ a + 1)]
    have hdrop : tc.drop (a+1) = [] := List.drop_eq_nil_of_le (by omega)
    rw [List.drop_length, hdrop]
    simp

lemma pySlice_nb_length (tc : List ℚ) (a b : Nat) (hab : a ≤ b)
    (hlen : b + 2 ≤ tc.length) :
    (pySlice tc ((a : Int) + 1) ((b : Int) + 2)).length = b + 1 - a := by
  rw [pySlice_nb tc a b hlen]
  simp only [List.length_take, List.length_drop]
  omega

lemma pySlice_nb_get? (tc : List ℚ) (a b i : Nat) (hlen : b + 2 ≤ tc.length)
    (hi : i < b + 1 - a) :
    (pySlice tc ((a : Int) + 1) ((b : Int) + 2)).get? i = tc.get? (a + 1 + i) := by
  rw [pySlice_nb tc a b hlen, List.get?_take hi, List.get?_drop]

lemma keptBefore_cons_zero (t : Nat × Nat) (ts : List (Nat × Nat)) :
    keptBefore (t :: ts) 0 = 0 := rfl

lemma keptBefore_cons_succ (a b : Nat) (ts : List (Nat × Nat)) (k : Nat) :
    keptBefore ((a, b) :: ts) (k + 1) = (b - a + 1) + keptBefore ts k := by
  rw [keptBefore, keptBefore, List.take_succ_cons, List.map_cons, List.sum_cons]

lemma keptBefore_succ_get {trimsN : List (Nat × Nat)} {k a b : Nat}
    (htk : trimsN.get? k = some (a, b)) :
    keptBefore trimsN (k + 1) = keptBefore trimsN k + (b - a + 1) := by
  rw [keptBefore, keptBefore, List.take_succ, ← List.get?_eq_getElem?, htk]
  simp

lemma keptBefore_succ_pos (trimsN : List (Nat × Nat)) (k a b : Nat)
    (htk : trimsN.get? k = some (a, b)) : 0 < keptBefore trimsN (k + 1) := by
  rw [keptBefore_succ_get htk]
  omega

lemma gapsNB_msMult :
    ∀ (trimsN : List (Nat × Nat)) (tc : List ℚ) (pe : ℚ),
      (∀ v ∈ tc, isMsMult v) → isMsMult pe →
      ∀ k, isMsMult (gapsNB tc pe trimsN k) := by
  intro trimsN
  induction trimsN with
  | nil =>
    intro tc pe _ _ k
    rw [gapsNB.eq_def]
    exact isMsMult_zero
  | cons t ts ih =>
    intro tc pe hmul hpe k
    obtain ⟨a, b⟩ := t
    rcases k with _ | k'
    · rw [gapsNB]
      exact isMsMult_sub (isMsMult_getD hmul a) hpe
    · rw [gapsNB]
      exact ih tc _ hmul
        (isMsMult_sub (isMsMult_getD hmul (b+1))
          (isMsMult_sub (isMsMult_getD hmul a) hpe)) k'

lemma gapsNB_chain :
    ∀ (trimsN : List (Nat × Nat)) (tc : List ℚ) (pe : ℚ) (k a b a' b' : Nat),
      trimsN.get? k = some (a, b) → trimsN.get? (k+1) = some (a', b') →
      tc.getD a' 0 - gapsNB tc pe trimsN (k+1) =
        tc.getD (b+1) 0 - gapsNB tc pe trimsN k := by
  intro trimsN
  induction trimsN with
  | nil =>
    intro tc pe k a b a' b' htk _
    exact absurd htk (by simp)
  | cons t ts ih =>
    intro tc pe k a b a' b' htk htk1
    obtain ⟨a0, b0⟩ := t
    rcases k with _ | k'
    · have hab : a0 = a ∧ b0 = b := by
        have := htk
        simp only [List.get?_cons_zero, Option.some.injEq, Prod.mk.injEq] at this
        exact this
      obtain ⟨ha0, hb0⟩ := hab
      subst ha0; subst hb0
      have htk1' : ts.get? 0 = some (a', b') := by simpa using htk1
      rcases hts : ts with _ | ⟨⟨a1, b1⟩, ts'⟩
      · rw [hts] at htk1'
        exact absurd htk1' (by simp)
      · rw [hts] at htk1'
        have hab1 : a1 = a' ∧ b1 = b' := by
          simp only [List.get?_cons_zero, Option.some.injEq, Prod.mk.injEq] at htk1'
          exact htk1'
        obtain ⟨ha1, hb1⟩ := hab1
        subst ha1; subst hb1
        simp only [gapsNB]
        ring
    · have htk' : ts.get? k' = some (a, b) := by simpa using htk
      have htk1' : ts.get? (k'+1) = some (a', b') := by simpa using htk1
      rw [gapsNB, gapsNB]
      exact ih tc _ k' a b a' b' htk' htk1'

lemma segsNB_getD :
    ∀ (trimsN : List (Nat × Nat)) (tc : List ℚ) (pe : ℚ),
      (∀ p ∈ trimsN, p.1 ≤ p.2) → (∀ p ∈ trimsN, p.2 + 2 ≤ tc.length) →
      ∀ (k a b f : Nat), trimsN.get? k = some (a, b) →
        a + 1 ≤ f → f ≤ b + 1 →
        (segsNB tc pe trimsN).getD (keptBefore trimsN k + (f - (a + 1))) 0 =
          q3 (tc.getD f 0 - gapsNB tc pe trimsN k) := by
  intro trimsN
  induction trimsN with
  | nil =>
    intro tc pe _ _ k a b f htk _ _
    exact absurd htk (by simp)
  | cons t ts ih =>
    intro tc pe hv hb k a b f htk h1 h2
    obtain ⟨a0, b0⟩ := t
    have hv0 : a0 ≤ b0 := hv _ (List.mem_cons_self _ _)
    have hb0 : b0 + 2 ≤ tc.length := hb _ (List.mem_cons_self _ _)
    have hlen0 : ((pySlice tc ((a0 : Int) + 1) ((b0 : Int) + 2)).map
        (fun v => q3 (v - (tc.getD a0 0 - pe)))).length = b0 + 1 - a0 := by
      rw [List.length_map, pySlice_nb_length tc a0 b0 hv0 hb0]
    rcases k with _ | k'
    · have hab : a0 = a ∧ b0 = b := by
        simp only [List.get?_cons_zero, Option.some.injEq, Prod.mk.injEq] at htk
        exact htk
      obtain ⟨ha0, hb0'⟩ := hab
      subst ha0; subst hb0'
      rw [segsNB, keptBefore_cons_zero, Nat.zero_add, gapsNB]
      rw [List.getD_append _ _ _ _ (by rw [hlen0]; omega)]
      rw [List.getD_eq_getD_get?, List.get?_map,
        pySlice_nb_get? tc a0 b0 (f - (a0+1)) hb0 (by omega)]
      rw [show a0 + 1 + (f - (a0 + 1)) = f from by omega]
      rw [get?_eq_some_getD tc 0 f (by omega)]
      rfl
    · have htk' : ts.get? k' = some (a, b) := by simpa using htk
      rw [segsNB, keptBefore_cons_succ]
      rw [List.getD_append_right _ _ _ _ (by rw [hlen0]; omega)]
      rw [hlen0]
      rw [show (b0 - a0 + 1) + keptBefore ts k' + (f - (a + 1)) - (b0 + 1 - a0) =
        keptBefore ts k' + (f - (a + 1)) from by omega]
      rw [gapsNB]
      exact ih tc _ (fun p hp => hv p (List.mem_cons_of_mem _ hp))
        (fun p hp => hb p (List.mem_cons_of_mem _ hp)) k' a b f htk' h1 h2

lemma frames2time_vfr_nb (trimsN : List (Nat × Nat)) (tc : List ℚ)
    (hv : ∀ p ∈ trimsN, p.1 ≤ p.2) (hb : ∀ p ∈ trimsN, p.2 + 1 < tc.length) :
    frames2time_vfr (natTrims trimsN) tc = .ok
      ((vfrStepsNB tc 0 trimsN).map (fun st =>
        { start := (pyRound st.s : ℚ), stop := (pyRound st.e : ℚ),
          frame_shift := none, time_shift := some (pyRound (-st.gap)) }),
       0 :: segsNB tc 0 trimsN) := by
  rw [frames2time_vfr, vfrLoop_nb trimsN tc 0 hv hb]
  dsimp only
  rw [flatMap_zip_segsNB]

/-- Claim C9, amended.  When the timecode table consists of whole
multiples of 0.001 ms (3-decimal v2 values, as both timecode readers
produce) and every kept interval lies inside the table, the emitted
output table is `0.000`-based and, for every kept interval `(a, b)` and
frame `a ≤ f ≤ b`, the per-frame duration at `f`'s image on the output
timeline equals the original `table[f+1] − table[f]`; for tables with
finer-grained values the `'{:.3f}'` formatting can perturb durations
(see the counterexample). -/
theorem claim_c9_amended :
    ∀ (trimsN : List (Nat × Nat)) (tc : List ℚ) (ts : List Trim)
      (nl : List ℚ) (k a b f : Nat),
      (∀ v ∈ tc, isMsMult v) →
      (∀ p ∈ trimsN, p.1 ≤ p.2) →
      List.Chain' (fun p q => p.2 < q.1) trimsN →
      (∀ p ∈ trimsN, p.2 + 1 < tc.length) →
      trimsN.get? k = some (a, b) → a ≤ f → f ≤ b →
      frames2time_vfr (natTrims trimsN) tc = .ok (ts, nl) →
      nl.getD 0 0 = 0 ∧
      emittedDur nl (imgOf trimsN k f) = tableDur tc f := by
  intro trimsN tc ts nl k a b f hmul hv _hasc hb htk haf hfb hrun
  have hb2 : ∀ p ∈ trimsN, p.2 + 2 ≤ tc.length := fun p hp => by
    have := hb p hp; omega
  have hmem : (a, b) ∈ trimsN := List.get?_mem htk
  have hab : a ≤ b := hv _ hmem
  have hblen : b + 2 ≤ tc.length := hb2 _ hmem
  have hnb := frames2time_vfr_nb trimsN tc hv hb
  rw [hrun] at hnb
  have hnl : nl = 0 :: segsNB tc 0 trimsN :=
    ((Prod.mk.injEq _ _ _ _).mp ((Except.ok.injEq _ _).mp hnb)).2
  subst hnl
  refine ⟨rfl, ?_⟩
  rw [emittedDur, imgOf]
  rw [show (trimsN.getD k (0, 0)).1 = a from by
    rw [List.getD_eq_getD_get?, htk]
    rfl]
  have hgm : isMsMult (gapsNB tc 0 trimsN k) :=
    gapsNB_msMult trimsN tc 0 hmul isMsMult_zero k
  have hsgd := segsNB_getD trimsN tc 0 hv hb2
  have hhigh : (0 :: segsNB tc 0 trimsN).getD
      ((f - a + keptBefore trimsN k) + 1) 0 =
      q3 (tc.getD (f+1) 0 - gapsNB tc 0 trimsN k) := by
    rw [List.getD_cons_succ]
    rw [show f - a + keptBefore trimsN k =
      keptBefore trimsN k + ((f+1) - (a+1)) from by omega]
    exact hsgd k a b (f+1) htk (by omega) (by omega)
  have hlow : (0 :: segsNB tc 0 trimsN).getD (f - a + keptBefore trimsN k) 0 =
      q3 (tc.getD f 0 - gapsNB tc 0 trimsN k) := by
    rcases Nat.lt_or_ge a f with hfa | hfa'
    · rw [show f - a + keptBefore trimsN k =
        (keptBefore trimsN k + (f - (a+1))) + 1 from by omega]
      rw [List.getD_cons_succ]
      exact hsgd k a b f htk (by omega) (by omega)
    · have hfa : f = a := by omega
      rw [hfa]
      rcases k with _ | k''
      · rcases htrims : trimsN with _ | ⟨⟨aa, bb⟩, rest⟩
        · rw [htrims] at htk
          exact absurd htk (by simp)
        · have haa : aa = a := by
            rw [htrims] at htk
            simp only [List.get?_cons_zero, Option.some.injEq,
              Prod.mk.injEq] at htk
            exact htk.1
          rw [show a - a + keptBefore ((aa, bb) :: rest) 0 = 0 from by
            rw [keptBefore_cons_zero]; omega]
          rw [List.getD_cons_zero, gapsNB]
          rw [show tc.getD a 0 - (tc.getD aa 0 - 0) = 0 from by rw [haa]; ring]
          exact (q3_msMult isMsMult_zero).symm
      · have hk1len : k'' + 1 < trimsN.length := by
          rcases List.get?_eq_some.mp htk with ⟨hlt, -⟩
          exact hlt
        obtain ⟨a2, b2, htk2⟩ : ∃ a2 b2, trimsN.get? k'' = some (a2, b2) := by
          have hlt' : k'' < trimsN.length := by omega
          refine ⟨(trimsN.get ⟨k'', hlt'⟩).1, (trimsN.get ⟨k'', hlt'⟩).2, ?_⟩
          rw [List.get?_eq_get hlt']
        have hv2 : a2 ≤ b2 := hv _ (List.get?_mem htk2)
        have hkb1 : keptBefore trimsN (k''+1) =
            keptBefore trimsN k'' + (b2 - a2 + 1) := keptBefore_succ_get htk2
        rw [show a - a + keptBefore trimsN (k''+1) =
          (keptBefore trimsN k'' + ((b2+1) - (a2+1))) + 1 from by omega]
        rw [List.getD_cons_succ]
        rw [hsgd k'' a2 b2 (b2+1) htk2 (by omega) (by omega)]
        have hchain := gapsNB_chain trimsN tc 0 k'' a2 b2 a b htk2 htk
        rw [← hchain]
  rw [hhigh, hlow]
  rw [q3_msMult (isMsMult_sub (isMsMult_getD hmul (f+1)) hgm),
      q3_msMult (isMsMult_sub (isMsMult_getD hmul f) hgm)]
  rw [tableDur]
  ring

/-- Witness for the amended C9 at a concrete whole-millisecond table. -/
theorem claim_c9_amended_witness :
    ([0, q3 (1 - (0 - 0)), q3 (2 - (0 - 0))] : List ℚ).getD 0 0 = 0 ∧
    emittedDur [0, q3 (1 - (0 - 0)), q3 (2 - (0 - 0))] (imgOf [(0, 1)] 0 0) =
      tableDur [0, 1, 2] 0 :=
  claim_c9_amended [(0, 1)] [0, 1, 2]
    [⟨(pyRound 0 : ℚ), (pyRound 2 : ℚ), none, some (pyRound (-(0 - 0)))⟩]
    [0, q3 (1 - (0 - 0)), q3 (2 - (0 - 0))] 0 0 1 0
    (by
      intro v hv
      simp only [List.mem_cons, List.not_mem_nil, or_false] at hv
      rcases hv with h | h | h
      · exact ⟨0, by rw [h]; norm_num⟩
      · exact ⟨1000, by rw [h]; norm_num⟩
      · exact ⟨2000, by rw [h]; norm_num⟩)
    (by decide) (by simp) (by decide) rfl (by decide) (by decide) rfl

end TrimSubs
